import Mathlib

/-!
Verification of the discrete-time task-scheduling simulator in `src/script.js`.

The development is a shallow embedding of the `runSimulation` function and its
helpers (`chooseNext` / `chooseNextWithBoost`, `applyPriorityInheritance`,
`computeLaxity`, the per-tick loop body and the metrics block).

Modelling conventions:
* JavaScript numbers are modelled by `ℚ`; `NaN` and the infinities, which the
  source can produce through `Number(...)` coercions and through division by
  zero in the metrics block, are modelled explicitly by the `JNum` type where
  they can actually arise (the task normalizer and the ratio metrics).
* Inside the engine all task fields are ordinary rationals; the `period` field
  uses `WithTop ℚ` with `⊤` standing for the `Infinity` sentinel that the
  normalizer assigns to absent/null periods.  The JS sort comparator
  `a.period - b.period || ...` falls through to the next key exactly when the
  difference is `0` or `NaN` (`Infinity - Infinity`), which is precisely the
  behaviour of comparison on `WithTop ℚ` with ties falling through.
* The JS `sort(cmp)[0]` idiom (a stable sort, ES2019) returns the first
  element of the list that is minimal for the comparator; it is embedded as a
  fold that keeps the earliest strictly-minimal element.
* The mutable task objects of the source are modelled by a `List Task`
  updated positionally; the `ready` array of object references is modelled as
  a list of task ids (task ids are unique per the input contract; lookups go
  through `List.find?` exactly as aliasing does in the source).
* Log lines are modelled as structured `LogEntry` values carrying the same
  data as the formatted strings of the source.
-/

namespace OSSim

/-! ## JavaScript number values (for the normalizer and the metrics block) -/

/-- A JavaScript number as observed by this program: a finite value, one of
the two infinities, or `NaN`. -/
inductive JNum where
  | nan : JNum
  | inf : JNum
  | ninf : JNum
  | fin : ℚ → JNum
  deriving DecidableEq, Repr

/-- JS division `a / b` on finite operands: division by zero yields `NaN`
(for `0 / 0`) or a signed infinity. -/
def jsDiv (a b : ℚ) : JNum :=
  if b = 0 then
    if a = 0 then JNum.nan else if 0 < a then JNum.inf else JNum.ninf
  else JNum.fin (a / b)

/-- Truthiness of a JS number: `0` and `NaN` are falsy. -/
def JNum.truthy : JNum → Bool
  | .nan => false
  | .inf => true
  | .ninf => true
  | .fin q => q ≠ 0

/-- JS addition on number values (`NaN` is absorbing; `Infinity + -Infinity`
is `NaN`). -/
def JNum.add : JNum → JNum → JNum
  | .nan, _ => .nan
  | _, .nan => .nan
  | .inf, .ninf => .nan
  | .ninf, .inf => .nan
  | .inf, _ => .inf
  | .ninf, _ => .ninf
  | .fin _, .inf => .inf
  | .fin _, .ninf => .ninf
  | .fin a, .fin b => .fin (a + b)

/-- A raw JavaScript value in a numeric field of a task descriptor, as far as
the normalizer observes it: it is inspected only through `=== undefined`,
`=== null`, truthiness (`||`) and `Number(...)`.  `val truthy num` stands for
any other value with the given truthiness and `Number(...)` image (e.g. the
string `"abc"` is `val true JNum.nan`, the number `7` is
`val true (JNum.fin 7)`, the number `0` is `val false (JNum.fin 0)`). -/
inductive RawVal where
  | undef : RawVal
  | nullv : RawVal
  | val : Bool → JNum → RawVal
  deriving DecidableEq, Repr

/-- JS truthiness of a raw value (`undefined` and `null` are falsy). -/
def RawVal.truthy : RawVal → Bool
  | .undef => false
  | .nullv => false
  | .val t _ => t

/-- `Number(v)` for a raw value: `Number(undefined) = NaN`,
`Number(null) = 0`, otherwise the recorded coercion. -/
def RawVal.toNumber : RawVal → JNum
  | .undef => .nan
  | .nullv => .fin 0
  | .val _ n => n

/-- JS `a || b` on raw values. -/
def jsOr (a b : RawVal) : RawVal := if a.truthy then a else b

/-- The raw value denoting the JS number literal `q`. -/
def rawNum (q : ℚ) : RawVal := .val (decide (q ≠ 0)) (.fin q)

/-- Re-inject an already computed JS number as a raw value (used for the
`tt.deadline || tt.deadline_relative || tt.exec` fallback, where `tt.exec`
has already been normalized to a number). -/
def rawOfJNum (n : JNum) : RawVal := .val n.truthy n

/-! ## Engine data model (normalized tasks, CPU states, simulator state) -/

/-- A contiguous run segment of a task's Gantt history
(`{start, end, state}` in the source; the `state` field is the constant
string `'run'` everywhere in the source, so it is omitted, see
`Task.history` below). -/
structure Seg where
  start : ℕ
  stop : ℕ
  deriving DecidableEq, Repr

/-- A CPU power state (`CPU_STATES` in the source). -/
structure CpuState where
  name : String
  speed : ℚ
  power : ℚ
  deriving DecidableEq, Repr

/-- `CPU_STATES.HIGH`. -/
def CPU_HIGH : CpuState := ⟨"HIGH_PERFORMANCE", 1, 10⟩

/-- `CPU_STATES.LOW`. -/
def CPU_LOW : CpuState := ⟨"POWER_SAVER", 1/2, 3⟩

/-- A normalized task record, mirroring the fields set up at the top of
`runSimulation`.  `period = ⊤` is the `Infinity` sentinel for absent/null
periods. -/
structure Task where
  id : String
  arrival : ℚ
  exec : ℚ
  deadline_relative : ℚ
  abs_deadline : ℚ
  period : WithTop ℚ
  is_critical : Bool
  holds_resource : Option String
  needs_resource : Option String
  remaining : ℚ
  admitted : Bool
  started : Bool
  start_time : Option ℕ
  completed : Bool
  completion_time : Option ℕ
  wait_time : ℕ
  history : List Seg
  boosted : Bool
  deriving DecidableEq, Repr

/-- Build a normalized task from plain numeric inputs, exactly as the
normalizer initializes the mutable fields (`remaining = exec`,
`abs_deadline = arrival + deadline`, everything else cleared). -/
def mkTask (id : String) (arrival exec deadline : ℚ) (period : WithTop ℚ)
    (is_critical : Bool) (holds needs : Option String) : Task :=
  { id := id, arrival := arrival, exec := exec, deadline_relative := deadline,
    abs_deadline := arrival + deadline, period := period,
    is_critical := is_critical, holds_resource := holds, needs_resource := needs,
    remaining := exec, admitted := false, started := false, start_time := none,
    completed := false, completion_time := none, wait_time := 0, history := [],
    boosted := false }

/-- The completion threshold `0.0001` of the source
(`running.remaining <= 0.0001`). -/
def epsDone : ℚ := 1 / 10000

/-- A structured log line.  Each constructor corresponds to one `logPush`
call site of the source and carries the tick and the data interpolated into
the message. -/
inductive LogEntry where
  | admittedT : ℕ → String → LogEntry
  | boost : ℕ → String → String → LogEntry
  | blockedOnRes : ℕ → String → String → LogEntry
  | acquired : ℕ → String → String → LogEntry
  | runStep : ℕ → String → ℚ → ℚ → LogEntry
  | idleTick : ℕ → LogEntry
  | completedT : ℕ → String → ℚ → LogEntry
  | released : ℕ → String → String → LogEntry
  deriving DecidableEq, Repr

/-- One per-tick timeline snapshot
(`{time, running: running ? running.id : null, cpuState: cpuState.name}`). -/
structure TimelineEntry where
  time : ℕ
  running : Option String
  cpuState : String
  deriving DecidableEq, Repr

/-- The mutable simulation state of `runSimulation` (everything that lives
across loop iterations: the task array, the `ready` array — as task ids —
the clock, the stale `running` reference, the resource table as an
association list, the log, the timeline, the accumulators and the last
assigned `cpuState`). -/
structure SimState where
  tasks : List Task
  ready : List String
  time : ℕ
  running : Option String
  resources : List (String × String)
  log : List LogEntry
  timeline : List TimelineEntry
  totalEnergy : ℚ
  cpuBusyTime : ℕ
  cpuState : CpuState
  deriving DecidableEq, Repr

/-- Run parameters (`scheduler` string and `laxityThreshold`; the horizon
`totalTime` is passed to the loop separately as fuel). -/
structure Config where
  sched : String
  laxityThreshold : ℚ
  deriving DecidableEq, Repr

/-- Lookup in the resource table (`resources[r]`). -/
def resGet (res : List (String × String)) (k : String) : Option String :=
  (res.find? (fun p => p.1 = k)).map (fun p => p.2)

/-- Assignment `resources[k] = v` (each key occurs at most once). -/
def resSet (res : List (String × String)) (k v : String) : List (String × String) :=
  (k, v) :: res.filter (fun p => p.1 ≠ k)

/-- Deletion `delete resources[k]`. -/
def resDel (res : List (String × String)) (k : String) : List (String × String) :=
  res.filter (fun p => p.1 ≠ k)

/-- Update every task whose `id` matches (the source mutates the unique
object with this id in place). -/
def updateById (ts : List Task) (id : String) (f : Task → Task) : List Task :=
  ts.map (fun t => if t.id = id then f t else t)

/-! ## Scheduling policy (`chooseNextWithBoost`) -/

/-- Three-way comparison from a linear order. -/
def cmp3 {α : Type} [LinearOrder α] (a b : α) : Ordering :=
  if a < b then .lt else if a = b then .eq else .gt

/-- A lexicographic task comparator from three key functions, mirroring the
JS comparator idiom `k₁(a)-k₁(b) || k₂(a)-k₂(b) || k₃(a)-k₃(b)`: a zero (or,
for the `period` key, `NaN = Infinity - Infinity`) difference falls through
to the next key. -/
def taskCmpBy {α β γ : Type} [LinearOrder α] [LinearOrder β] [LinearOrder γ]
    (f : Task → α) (g : Task → β) (h : Task → γ) (a b : Task) : Ordering :=
  ((cmp3 (f a) (f b)).then (cmp3 (g a) (g b))).then (cmp3 (h a) (h b))

/-- RMS ordering: period (with the `Infinity` sentinel always losing to any
finite period), then arrival, then id
(`a.period - b.period || a.arrival - b.arrival || a.id.localeCompare(b.id)`). -/
def rmsCmp : Task → Task → Ordering :=
  taskCmpBy (fun t => t.period) (fun t => t.arrival) (fun t => t.id)

/-- EDF ordering: absolute deadline, then arrival, then id. -/
def edfCmp : Task → Task → Ordering :=
  taskCmpBy (fun t => t.abs_deadline) (fun t => t.arrival) (fun t => t.id)

/-- `candidates.sort(cmp)[0]` for a stable sort: the earliest element of the
list that is minimal for the comparator. -/
def pickMin (cmp : Task → Task → Ordering) : List Task → Option Task
  | [] => none
  | t :: ts => some (ts.foldl (fun best c => if cmp c best = .lt then c else best) t)

/-- The candidate filter `ready.filter(t => t.remaining > 0 && !t.completed)`. -/
def candidatesOf (ready : List Task) : List Task :=
  ready.filter (fun t => decide (0 < t.remaining) && !t.completed)

/-- `t._effectiveCritical = t._boosted || t.is_critical`. -/
def effCrit (t : Task) : Bool := t.boosted || t.is_critical

/-- `chooseNextWithBoost`: select among the Ready candidates according to the
scheduler string.  The explicit `candidates.length === 0` early return of the
source is subsumed: every branch returns `none` on an empty candidate list. -/
def chooseNextWithBoost (sched : String) (ready : List Task) : Option Task :=
  if sched = "rms" then pickMin rmsCmp (candidatesOf ready)
  else if sched = "edf" then pickMin edfCmp (candidatesOf ready)
  else if sched = "hybrid" ∨ sched = "energy-hybrid" then
    if ((candidatesOf ready).filter effCrit).isEmpty then pickMin edfCmp (candidatesOf ready)
    else pickMin rmsCmp ((candidatesOf ready).filter effCrit)
  else pickMin edfCmp (candidatesOf ready)

/-! ## Task Normalizer (lines 88–106 of `runSimulation`) -/

/-- A raw task descriptor as consumed by the normalizer.  Numeric fields are
arbitrary JS values (`RawVal`); the resource-name fields are kept as
`Option String` (the source applies `x || null`, so `none` stands for any
falsy value). -/
structure RawTask where
  id : String
  arrival : RawVal
  execution : RawVal
  exec : RawVal
  deadline : RawVal
  deadline_relative : RawVal
  period : RawVal
  is_critical : RawVal
  holds_resource : Option String
  needs_resource : Option String
  deriving DecidableEq, Repr

/-- A raw descriptor with every field absent except the id (`{ id: "..." }`). -/
def rawDefault (id : String) : RawTask :=
  ⟨id, .undef, .undef, .undef, .undef, .undef, .undef, .undef, none, none⟩

/-- A normalized task record as produced by the normalizer, with the numeric
fields kept as JS number values (they can be `NaN` or `Infinity`). -/
structure NTask where
  id : String
  arrival : JNum
  exec : JNum
  remaining : JNum
  deadline_relative : JNum
  abs_deadline : JNum
  period : JNum
  is_critical : Bool
  holds_resource : Option String
  needs_resource : Option String
  history : List Seg
  started : Bool
  completed : Bool
  completion_time : Option ℕ
  wait_time : ℕ
  deriving DecidableEq, Repr

/-- The normalizer body (`tasks.map(t => ...)`):
`arrival = Number(t.arrival || 0)`,
`exec = Number(t.execution || t.exec || 0)`, `remaining = exec`,
`deadline_relative = Number(t.deadline || t.deadline_relative || exec)`,
`abs_deadline = arrival + deadline_relative`,
`period = (t.period === null or undefined) ? Infinity : Number(t.period)`,
`is_critical = !!t.is_critical`, and the mutable-field defaults. -/
def normalizeTask (t : RawTask) : NTask :=
  let arrival := (jsOr t.arrival (rawNum 0)).toNumber
  let exec := (jsOr t.execution (jsOr t.exec (rawNum 0))).toNumber
  let dlrel := (jsOr t.deadline (jsOr t.deadline_relative (rawOfJNum exec))).toNumber
  { id := t.id,
    arrival := arrival,
    exec := exec,
    remaining := exec,
    deadline_relative := dlrel,
    abs_deadline := arrival.add dlrel,
    period := if t.period = RawVal.nullv || t.period = RawVal.undef then JNum.inf
              else t.period.toNumber,
    is_critical := t.is_critical.truthy,
    holds_resource := t.holds_resource,
    needs_resource := t.needs_resource,
    history := [], started := false, completed := false,
    completion_time := none, wait_time := 0 }

/-- The whole normalizer: one task per descriptor, in input order. -/
def normalizeTasks (ts : List RawTask) : List NTask := ts.map normalizeTask

/-! ## Resource Arbiter (`applyPriorityInheritance`) -/

/-- The priority score `(t.is_critical ? 1000000 : 0) - t.abs_deadline` used
by the arbiter.  Note that it reads the static `is_critical` flag only. -/
def score (t : Task) : ℚ := (if t.is_critical then 1000000 else 0) - t.abs_deadline

/-- One iteration of the waiter loop of `applyPriorityInheritance`: look up
the waiter object, its needed resource, the current owner, and boost the
owner if the waiter's score is strictly higher. -/
def arbStep (time : ℕ) (resources : List (String × String))
    (acc : List Task × List LogEntry) (wid : String) : List Task × List LogEntry :=
  match acc.1.find? (fun t => t.id = wid) with
  | none => acc
  | some waiter =>
    match waiter.needs_resource with
    | none => acc
    | some r =>
      match resGet resources r with
      | none => acc
      | some ownerId =>
        match acc.1.find? (fun t => t.id = ownerId) with
        | none => acc
        | some owner =>
          if score owner < score waiter then
            (updateById acc.1 ownerId (fun t => { t with boosted := true }),
             acc.2 ++ [.boost time ownerId wid])
          else acc

/-- `applyPriorityInheritance`: clear all boosts, then walk the `ready` list
in order, boosting resource owners that block a higher-scoring waiter.
Returns the updated task list and the log lines emitted. -/
def applyPriorityInheritance (time : ℕ) (tasks : List Task) (ready : List String)
    (resources : List (String × String)) : List Task × List LogEntry :=
  ready.foldl (arbStep time resources)
    (tasks.map (fun t => { t with boosted := false }), [])

/-! ## DVFS governor and laxity -/

/-- `computeLaxity`: slack of a task at the current tick, using the current
(full-speed) `remaining` value. -/
def computeLaxity (time : ℕ) (t : Task) : ℚ :=
  t.abs_deadline - ((time : ℚ) + t.remaining)

/-- The DVFS decision of the loop body (lines 242–252 of the source): under
`energy-hybrid`, LOW when idle, otherwise LOW iff the selected task's laxity
exceeds the threshold; under every other scheduler, HIGH. -/
def dvfsChoose (sched : String) (next : Option Task) (time : ℕ)
    (laxityThreshold : ℚ) : CpuState :=
  if sched = "energy-hybrid" then
    match next with
    | none => CPU_LOW
    | some n => if laxityThreshold < computeLaxity time n then CPU_LOW else CPU_HIGH
  else CPU_HIGH

/-! ## Execution engine: the per-tick phases -/

/-- Whether admission applies to a task this tick
(`!t.admitted && t.arrival <= currentTime`). -/
def admitsNow (time : ℕ) (t : Task) : Bool :=
  !t.admitted && decide (t.arrival ≤ (time : ℚ))

/-- The per-task admission update. -/
def admAdj (time : ℕ) (t : Task) : Task :=
  if admitsNow time t then { t with admitted := true } else t

/-- Admission (`admitArrivals`): every not-yet-admitted task with
`arrival ≤ currentTime` is marked admitted, appended to `ready` and logged,
in task-list order (the source's single loop is split into the three
parallel traversals below, which produce the same final state). -/
def admitPhase (s : SimState) : SimState :=
  let newly := (s.tasks.filter (admitsNow s.time)).map (fun t => t.id)
  { s with
    tasks := s.tasks.map (admAdj s.time),
    ready := s.ready ++ newly,
    log := s.log ++ newly.map (LogEntry.admittedT s.time) }

/-- Boost-clearing plus arbitration (loop lines 229–236: the explicit boost
clearing is idempotent with the clearing at the head of
`applyPriorityInheritance`). -/
def arbPhase (s : SimState) : SimState :=
  let r := applyPriorityInheritance s.time s.tasks s.ready s.resources
  { s with tasks := r.1, log := s.log ++ r.2 }

/-- Resolve the `ready` array of object references into task values. -/
def resolveReady (s : SimState) : List Task :=
  s.ready.filterMap (fun id => s.tasks.find? (fun t => t.id = id))

/-- The task selected this tick (`const next = chooseNextWithBoost()`). -/
def selectedOf (cfg : Config) (s : SimState) : Option Task :=
  chooseNextWithBoost cfg.sched (resolveReady s)

/-- The CPU state chosen this tick. -/
def tickCpu (cfg : Config) (s : SimState) : CpuState :=
  dvfsChoose cfg.sched (selectedOf cfg s) s.time cfg.laxityThreshold

/-- Whether the selected task is blocked: it needs a resource whose current
owner is someone else. -/
def blockedOn (resources : List (String × String)) (n : Task) : Bool :=
  match n.needs_resource with
  | none => false
  | some r =>
    match resGet resources r with
    | none => false
    | some owner => owner ≠ n.id

/-- The in-place mutation applied to the running task by the execution step:
mark started, extend (or create) the trailing history segment, decrement
`remaining` by the CPU speed, and complete if the new remaining is within
`epsDone`.  (In the source the history branch tests
`lastSeg.state !== 'run'`, but every segment is created with state `'run'`,
so a non-empty history always extends its last segment.) -/
def execTask (time : ℕ) (speed : ℚ) (t : Task) : Task :=
  let t1 := if t.started then t else { t with started := true, start_time := some time }
  let t2 := { t1 with
    history := match t1.history.reverse with
      | [] => [⟨time, time + 1⟩]
      | seg :: rest => (({ seg with stop := time + 1 } : Seg) :: rest).reverse,
    remaining := t1.remaining - speed }
  if t2.remaining ≤ epsDone then
    { t2 with completed := true, completion_time := some (time + 1) }
  else t2

/-- `t.wait_time += 1`. -/
def waitBump (t : Task) : Task := { t with wait_time := t.wait_time + 1 }

/-- The blocked branch (lines 262–268): increment the selected task's
`wait_time`, log the block, leave `running` null. -/
def blockBranch (s : SimState) (n : Task) : SimState :=
  { s with
    tasks := updateById s.tasks n.id waitBump,
    log := s.log ++ [.blockedOnRes s.time n.id (n.needs_resource.getD "")],
    running := none }

/-- The resource-table effect of a run step: acquire the needed resource,
record ownership of a held resource, and — when the step completes the
task — release the held resource and clear the task's own needed-resource
entry. -/
def runResources (cpu : CpuState) (resources : List (String × String)) (n : Task) :
    List (String × String) :=
  let res1 := match n.needs_resource with
    | some r => resSet resources r n.id
    | none => resources
  let res2 := match n.holds_resource with
    | some h => resSet res1 h n.id
    | none => res1
  if n.remaining - cpu.speed ≤ epsDone then
    let res3 := match n.holds_resource with
      | some h => if resGet res2 h = some n.id then resDel res2 h else res2
      | none => res2
    match n.needs_resource with
    | some r => if resGet res3 r = some n.id then resDel res3 r else res3
    | none => res3
  else res2

/-- The log lines of a run step: the acquisition (when the task needs a
resource and was not blocked), the running line, and on completion the
completion line followed by the release line (when the held resource was
owned by the task). -/
def runLogs (cpu : CpuState) (resources : List (String × String)) (time : ℕ)
    (n : Task) : List LogEntry :=
  let lg1 := match n.needs_resource with
    | some r => [LogEntry.acquired time n.id r]
    | none => []
  let res1 := match n.needs_resource with
    | some r => resSet resources r n.id
    | none => resources
  let res2 := match n.holds_resource with
    | some h => resSet res1 h n.id
    | none => res1
  let rem' := n.remaining - cpu.speed
  if rem' ≤ epsDone then
    lg1 ++ [LogEntry.runStep time n.id cpu.speed (max 0 rem'),
            LogEntry.completedT (time + 1) n.id n.abs_deadline] ++
      (match n.holds_resource with
       | some h => if resGet res2 h = some n.id then
           [LogEntry.released (time + 1) n.id h] else []
       | none => [])
  else lg1 ++ [LogEntry.runStep time n.id cpu.speed (max 0 rem')]

/-- The run branch (lines 269–314): acquire/confirm resources, execute one
step at the given speed (with history, remaining, busy-counter and possible
completion updates), and emit the corresponding log lines. -/
def runBranch (cpu : CpuState) (s : SimState) (n : Task) : SimState :=
  { s with
    tasks := updateById s.tasks n.id (execTask s.time cpu.speed),
    resources := runResources cpu s.resources n,
    log := s.log ++ runLogs cpu s.resources s.time n,
    running := some n.id,
    cpuBusyTime := s.cpuBusyTime + 1 }

/-- Selection, DVFS, energy accounting and the execute-or-idle branch
(loop lines 239–318).  On an idle tick the `running` variable keeps its
stale value from the previous tick, exactly as in the source. -/
def midPhase (cfg : Config) (s : SimState) : SimState :=
  let cpu := tickCpu cfg s
  let s1 := { s with totalEnergy := s.totalEnergy + cpu.power, cpuState := cpu }
  match selectedOf cfg s with
  | none => { s1 with log := s1.log ++ [.idleTick s.time] }
  | some n =>
    if blockedOn s.resources n then blockBranch s1 n
    else runBranch cpu s1 n

/-- The per-task wait-time sweep update: a ready, non-completed task that is
not the (possibly null) `running` task gets `wait_time += 1`. -/
def sweepAdj (ready0 : List String) (running : Option String) (t : Task) : Task :=
  if ready0.contains t.id && !t.completed && decide (running ≠ some t.id) then waitBump t
  else t

/-- The wait-time sweep (lines 321–323). -/
def sweepPhase (ready0 : List String) (s : SimState) : SimState :=
  { s with tasks := s.tasks.map (sweepAdj ready0 s.running) }

/-- The early-termination test (lines 326–331): stop once every admitted task
is completed and no arrivals remain. -/
def breakCond (tasks : List Task) : Bool :=
  (tasks.filter (fun t => !t.completed && t.admitted)).isEmpty &&
  (tasks.filter (fun t => !t.admitted)).isEmpty

/-- The loop body after admission and arbitration: selection/execution, the
wait sweep, and the early-termination flag. -/
def execPhase (cfg : Config) (s : SimState) : SimState × Bool :=
  let s2 := sweepPhase s.ready (midPhase cfg s)
  (s2, breakCond s2.tasks)

/-- One whole tick: admission, boost recomputation, then the body. -/
def simTick (cfg : Config) (s : SimState) : SimState × Bool :=
  execPhase cfg (arbPhase (admitPhase s))

/-- Append the per-tick timeline snapshot and advance the clock (done only
when the tick did not take the early `break`, which in the source fires
before the `timeline.push`). -/
def advanceTick (s : SimState) : SimState :=
  { s with
    timeline := s.timeline ++ [⟨s.time, s.running, s.cpuState.name⟩],
    time := s.time + 1 }

/-- The simulation loop `for (currentTime = 0; currentTime <= totalTime; ...)`,
driven by the remaining number of iterations. -/
def simLoop (cfg : Config) : ℕ → SimState → SimState
  | 0, s => s
  | fuel + 1, s =>
    match simTick cfg s with
    | (s1, true) => s1
    | (s1, false) => simLoop cfg fuel (advanceTick s1)

/-- The initial state of a run. -/
def initState (tasks : List Task) : SimState :=
  { tasks := tasks, ready := [], time := 0, running := none, resources := [],
    log := [], timeline := [], totalEnergy := 0, cpuBusyTime := 0,
    cpuState := CPU_HIGH }

/-! ## Metrics Aggregator -/

/-- One record of the `deadlineMisses` result field. -/
structure MissRecord where
  id : String
  completed : Bool
  completion_time : Option ℕ
  abs_deadline : ℚ
  deriving DecidableEq, Repr

/-- The result bundle of `runSimulation`.  The two ratio fields are `JNum`
because the source computes them by JS division, which yields `NaN` on an
empty task set. -/
structure Results where
  tasks : List Task
  log : List LogEntry
  totalEnergy : ℚ
  deadlineMissRatio : JNum
  deadlineMisses : List MissRecord
  avgTurnaround : JNum
  cpuUtilization : ℚ
  timeline : List TimelineEntry
  totalSimTime : ℕ
  cpuBusyTime : ℕ
  deriving DecidableEq, Repr

/-- The deadline-miss filter
`tasks.filter(t => (!t.completed) || (t.completion_time > t.abs_deadline))`. -/
def missedOf (tasks : List Task) : List Task :=
  tasks.filter (fun t => !t.completed ||
    (match t.completion_time with
     | some c => decide (t.abs_deadline < (c : ℚ))
     | none => false))

/-- The turnaround summand: `completion_time - arrival` if completed (the
source tests the truthiness of `completion_time`, which is always ≥ 1 when
set), else `totalTime - arrival`. -/
def turnaround (totalTime : ℕ) (t : Task) : ℚ :=
  match t.completion_time with
  | some c => (c : ℚ) - t.arrival
  | none => (totalTime : ℚ) - t.arrival

/-- The metrics block (lines 342–359). -/
def computeResults (totalTime : ℕ) (s : SimState) : Results :=
  let totalSimTime := (s.tasks.map (fun t => t.completion_time.getD 0)).foldr max totalTime
  let missed := missedOf s.tasks
  { tasks := s.tasks,
    log := s.log,
    totalEnergy := s.totalEnergy,
    deadlineMissRatio := jsDiv (missed.length : ℚ) (s.tasks.length : ℚ),
    deadlineMisses := missed.map (fun t =>
      ⟨t.id, t.completed, t.completion_time, t.abs_deadline⟩),
    avgTurnaround := jsDiv (s.tasks.foldl (fun acc t => acc + turnaround totalTime t) 0)
      (s.tasks.length : ℚ),
    cpuUtilization := (s.cpuBusyTime : ℚ) / ((max totalSimTime 1 : ℕ) : ℚ),
    timeline := s.timeline,
    totalSimTime := totalSimTime,
    cpuBusyTime := s.cpuBusyTime }

/-- `runSimulation` on already-normalized tasks: run `totalTime + 1` loop
iterations from the initial state and aggregate. -/
def runSim (tasks : List Task) (sched : String) (totalTime : ℕ)
    (laxityThreshold : ℚ) : Results :=
  computeResults totalTime
    (simLoop ⟨sched, laxityThreshold⟩ (totalTime + 1) (initState tasks))

/-! ## Comparator theory and selection lemmas -/

theorem cmp3_eq_lt {α : Type} [LinearOrder α] {a b : α} : cmp3 a b = .lt ↔ a < b := by
  unfold cmp3
  split_ifs with h1 h2
  · exact iff_of_true rfl h1
  · exact iff_of_false (by simp) h1
  · exact iff_of_false (by simp) h1

theorem cmp3_eq_eq {α : Type} [LinearOrder α] {a b : α} : cmp3 a b = .eq ↔ a = b := by
  unfold cmp3
  split_ifs with h1 h2
  · exact iff_of_false (by simp) (ne_of_lt h1)
  · exact iff_of_true rfl h2
  · exact iff_of_false (by simp) h2

theorem cmp3_eq_gt {α : Type} [LinearOrder α] {a b : α} : cmp3 a b = .gt ↔ b < a := by
  unfold cmp3
  split_ifs with h1 h2
  · exact iff_of_false (by simp) (lt_asymm h1)
  · exact iff_of_false (by simp) (by rw [h2]; exact lt_irrefl b)
  · exact iff_of_true rfl (lt_of_le_of_ne (not_lt.mp h1) (Ne.symm h2))

theorem then_eq_lt {o₁ o₂ : Ordering} :
    o₁.then o₂ = .lt ↔ o₁ = .lt ∨ (o₁ = .eq ∧ o₂ = .lt) := by
  cases o₁ <;> simp [Ordering.then]

theorem then_eq_gt {o₁ o₂ : Ordering} :
    o₁.then o₂ = .gt ↔ o₁ = .gt ∨ (o₁ = .eq ∧ o₂ = .gt) := by
  cases o₁ <;> simp [Ordering.then]

theorem then_eq_eq {o₁ o₂ : Ordering} :
    o₁.then o₂ = .eq ↔ o₁ = .eq ∧ o₂ = .eq := by
  cases o₁ <;> simp [Ordering.then]

/-- The lexicographic key of a task for a three-key comparator. -/
def keyOf {α β γ : Type} (f : Task → α) (g : Task → β) (h : Task → γ)
    (t : Task) : α ×ₗ (β ×ₗ γ) :=
  toLex (f t, toLex (g t, h t))

theorem taskCmpBy_lt_iff {α β γ : Type} [LinearOrder α] [LinearOrder β] [LinearOrder γ]
    {f : Task → α} {g : Task → β} {h : Task → γ} {a b : Task} :
    taskCmpBy f g h a b = .lt ↔ keyOf f g h a < keyOf f g h b := by
  unfold taskCmpBy keyOf
  simp only [Prod.Lex.lt_iff, then_eq_lt, then_eq_eq, cmp3_eq_lt, cmp3_eq_eq]
  constructor
  · rintro ((h1 | ⟨e1, h2⟩) | ⟨⟨e1, e2⟩, h3⟩)
    · exact Or.inl h1
    · exact Or.inr ⟨e1, Or.inl h2⟩
    · exact Or.inr ⟨e1, Or.inr ⟨e2, h3⟩⟩
  · rintro (h1 | ⟨e1, (h2 | ⟨e2, h3⟩)⟩)
    · exact Or.inl (Or.inl h1)
    · exact Or.inl (Or.inr ⟨e1, h2⟩)
    · exact Or.inr ⟨⟨e1, e2⟩, h3⟩

theorem taskCmpBy_gt_iff {α β γ : Type} [LinearOrder α] [LinearOrder β] [LinearOrder γ]
    {f : Task → α} {g : Task → β} {h : Task → γ} {a b : Task} :
    taskCmpBy f g h a b = .gt ↔ keyOf f g h b < keyOf f g h a := by
  unfold taskCmpBy keyOf
  simp only [Prod.Lex.lt_iff, then_eq_gt, then_eq_eq, cmp3_eq_gt, cmp3_eq_eq]
  constructor
  · rintro ((h1 | ⟨e1, h2⟩) | ⟨⟨e1, e2⟩, h3⟩)
    · exact Or.inl h1
    · exact Or.inr ⟨e1.symm, Or.inl h2⟩
    · exact Or.inr ⟨e1.symm, Or.inr ⟨e2.symm, h3⟩⟩
  · rintro (h1 | ⟨e1, (h2 | ⟨e2, h3⟩)⟩)
    · exact Or.inl (Or.inl h1)
    · exact Or.inl (Or.inr ⟨e1.symm, h2⟩)
    · exact Or.inr ⟨⟨e1.symm, e2.symm⟩, h3⟩

/-- The fold inside `pickMin` returns an element of `b :: xs` whose key is a
lower bound for the keys of `b` and of every element of `xs`. -/
theorem foldl_pick_spec {α β γ : Type} [LinearOrder α] [LinearOrder β] [LinearOrder γ]
    (f : Task → α) (g : Task → β) (h : Task → γ) :
    ∀ (xs : List Task) (b : Task),
      (xs.foldl (fun best c => if taskCmpBy f g h c best = .lt then c else best) b = b ∨
        xs.foldl (fun best c => if taskCmpBy f g h c best = .lt then c else best) b ∈ xs) ∧
      keyOf f g h (xs.foldl (fun best c => if taskCmpBy f g h c best = .lt then c else best) b)
        ≤ keyOf f g h b ∧
      ∀ c ∈ xs,
        keyOf f g h (xs.foldl (fun best c => if taskCmpBy f g h c best = .lt then c else best) b)
          ≤ keyOf f g h c := by
  intro xs
  induction xs with
  | nil => intro b; exact ⟨Or.inl rfl, le_refl _, by simp⟩
  | cons x xs ih =>
    intro b
    simp only [List.foldl_cons]
    by_cases hc : taskCmpBy f g h x b = .lt
    · rw [if_pos hc]
      obtain ⟨hmem, hle, hall⟩ := ih x
      have hxb : keyOf f g h x < keyOf f g h b := taskCmpBy_lt_iff.mp hc
      refine ⟨?_, le_trans hle (le_of_lt hxb), ?_⟩
      · rcases hmem with h1 | h1
        · right; rw [h1]; exact List.mem_cons_self x xs
        · exact Or.inr (List.mem_cons_of_mem x h1)
      · intro c hcmem
        rcases List.mem_cons.mp hcmem with rfl | hcm
        · exact hle
        · exact hall c hcm
    · rw [if_neg hc]
      obtain ⟨hmem, hle, hall⟩ := ih b
      have hxb : ¬ keyOf f g h x < keyOf f g h b := fun hlt => hc (taskCmpBy_lt_iff.mpr hlt)
      refine ⟨?_, hle, ?_⟩
      · rcases hmem with h1 | h1
        · exact Or.inl h1
        · exact Or.inr (List.mem_cons_of_mem x h1)
      · intro c hcmem
        rcases List.mem_cons.mp hcmem with rfl | hcm
        · exact le_trans hle (not_lt.mp hxb)
        · exact hall c hcm

/-- `pickMin` returns `none` exactly on the empty list. -/
theorem pickMin_eq_none {cmp : Task → Task → Ordering} {l : List Task} :
    pickMin cmp l = none ↔ l = [] := by
  cases l <;> simp [pickMin]

/-- `pickMin` for a three-key lexicographic comparator returns an element of
the list that is minimal for the comparator (never `.gt` against any list
element). -/
theorem pickMin_spec {α β γ : Type} [LinearOrder α] [LinearOrder β] [LinearOrder γ]
    {f : Task → α} {g : Task → β} {h : Task → γ} {l : List Task} {t : Task}
    (hp : pickMin (taskCmpBy f g h) l = some t) :
    t ∈ l ∧ ∀ c ∈ l, taskCmpBy f g h t c ≠ .gt := by
  cases l with
  | nil => simp [pickMin] at hp
  | cons x xs =>
    simp only [pickMin, Option.some.injEq] at hp
    obtain ⟨hmem, hle, hall⟩ := foldl_pick_spec f g h xs x
    subst hp
    constructor
    · rcases hmem with h1 | h1
      · rw [h1]; exact List.mem_cons_self x xs
      · exact List.mem_cons_of_mem x h1
    · intro c hcmem hgt
      have hlt := taskCmpBy_gt_iff.mp hgt
      rcases List.mem_cons.mp hcmem with rfl | hcm
      · exact absurd hlt (not_lt.mpr hle)
      · exact absurd hlt (not_lt.mpr (hall c hcm))

/-- `pickMin` with the RMS comparator satisfies `pickMin_spec`. -/
theorem pickMin_rms_spec {l : List Task} {t : Task}
    (hp : pickMin rmsCmp l = some t) :
    t ∈ l ∧ ∀ c ∈ l, rmsCmp t c ≠ .gt := by
  unfold rmsCmp at hp ⊢
  exact pickMin_spec hp

/-- `pickMin` with the EDF comparator satisfies `pickMin_spec`. -/
theorem pickMin_edf_spec {l : List Task} {t : Task}
    (hp : pickMin edfCmp l = some t) :
    t ∈ l ∧ ∀ c ∈ l, edfCmp t c ≠ .gt := by
  unfold edfCmp at hp ⊢
  exact pickMin_spec hp

/-- A task comparator verdict other than `.gt` bounds the first key. -/
theorem first_key_le {α β γ : Type} [LinearOrder α] [LinearOrder β] [LinearOrder γ]
    {f : Task → α} {g : Task → β} {h : Task → γ} {n c : Task}
    (hne : taskCmpBy f g h n c ≠ .gt) : f n ≤ f c := by
  have hle : keyOf f g h n ≤ keyOf f g h c :=
    not_lt.mp (fun hlt => hne (taskCmpBy_gt_iff.mpr hlt))
  rcases (Prod.Lex.le_iff _ _).mp hle with h1 | ⟨h1, _⟩
  · exact le_of_lt h1
  · exact le_of_eq h1

/-- Every selected task is a candidate: it is drawn from the ready list, has
work remaining, and is not completed. -/
theorem chooseNext_mem {sched : String} {ready : List Task} {n : Task}
    (hc : chooseNextWithBoost sched ready = some n) :
    n ∈ ready ∧ 0 < n.remaining ∧ n.completed = false := by
  have main : n ∈ candidatesOf ready := by
    unfold chooseNextWithBoost at hc
    split_ifs at hc with h1 h2 h3 h4
    · exact (pickMin_rms_spec hc).1
    · exact (pickMin_edf_spec hc).1
    · exact (pickMin_edf_spec hc).1
    · exact List.mem_of_mem_filter (pickMin_rms_spec hc).1
    · exact (pickMin_edf_spec hc).1
  have hmem := List.mem_filter.mp main
  have hcond := hmem.2
  simp only [Bool.and_eq_true, decide_eq_true_eq, Bool.not_eq_true'] at hcond
  exact ⟨hmem.1, hcond.1, hcond.2⟩


/-- Under `edf` or any unrecognized scheduler name, selection is EDF
`pickMin` over the candidates. -/
theorem chooseNext_edf_eq (sched : String) (ready : List Task)
    (hs : sched = "edf" ∨
      (sched ≠ "rms" ∧ sched ≠ "edf" ∧ sched ≠ "hybrid" ∧ sched ≠ "energy-hybrid")) :
    chooseNextWithBoost sched ready = pickMin edfCmp (candidatesOf ready) := by
  rcases hs with rfl | ⟨h1, h2, h3, h4⟩
  · unfold chooseNextWithBoost
    rw [if_neg (by decide), if_pos rfl]
  · unfold chooseNextWithBoost
    rw [if_neg h1, if_neg h2, if_neg (fun hor => hor.elim h3 h4)]

/-- Under `hybrid` or `energy-hybrid`, selection is RMS `pickMin` over the
effectively-critical candidates when there are any, else EDF `pickMin` over
all candidates. -/
theorem chooseNext_hybrid_eq (sched : String) (ready : List Task)
    (hs : sched = "hybrid" ∨ sched = "energy-hybrid") :
    chooseNextWithBoost sched ready =
      (if ((candidatesOf ready).filter effCrit).isEmpty then
        pickMin edfCmp (candidatesOf ready)
      else pickMin rmsCmp ((candidatesOf ready).filter effCrit)) := by
  rcases hs with rfl | rfl
  · unfold chooseNextWithBoost
    rw [if_neg (by decide), if_neg (by decide), if_pos (Or.inl rfl)]
  · unfold chooseNextWithBoost
    rw [if_neg (by decide), if_neg (by decide), if_pos (Or.inr rfl)]

/-- Claim C4: under the `edf` discipline, and under any unrecognized
scheduler name (which falls back to EDF), selection yields no task exactly
when the candidate set (Ready tasks with `remaining > 0`, not completed) is
empty, and any selected task is a candidate with minimal `abs_deadline`,
minimal for the full EDF ordering (ties by smaller `arrival`, then smaller
id). -/
theorem c4_edf_and_fallback_selection (sched : String) (ready : List Task)
    (hs : sched = "edf" ∨
      (sched ≠ "rms" ∧ sched ≠ "edf" ∧ sched ≠ "hybrid" ∧ sched ≠ "energy-hybrid")) :
    (chooseNextWithBoost sched ready = none ↔ candidatesOf ready = []) ∧
    (∀ n, chooseNextWithBoost sched ready = some n →
      n ∈ candidatesOf ready ∧
      (∀ c ∈ candidatesOf ready, n.abs_deadline ≤ c.abs_deadline) ∧
      (∀ c ∈ candidatesOf ready, edfCmp n c ≠ .gt)) := by
  rw [chooseNext_edf_eq sched ready hs]
  refine ⟨pickMin_eq_none, ?_⟩
  intro n hn
  obtain ⟨hmem, hall⟩ := pickMin_edf_spec hn
  refine ⟨hmem, ?_, hall⟩
  intro c hc
  have := hall c hc
  unfold edfCmp at this
  exact first_key_le this

/-- Witness for C4: a concrete two-task ready list under `edf` (task `B` has
the smaller absolute deadline and is selected). -/
theorem c4_edf_and_fallback_selection_witness :
    ((chooseNextWithBoost "edf"
        [mkTask "A" 0 5 30 ⊤ false none none, mkTask "B" 0 5 20 ⊤ false none none] = none ↔
      candidatesOf
        [mkTask "A" 0 5 30 ⊤ false none none, mkTask "B" 0 5 20 ⊤ false none none] = []) ∧
    (∀ n, chooseNextWithBoost "edf"
        [mkTask "A" 0 5 30 ⊤ false none none, mkTask "B" 0 5 20 ⊤ false none none] = some n →
      n ∈ candidatesOf
        [mkTask "A" 0 5 30 ⊤ false none none, mkTask "B" 0 5 20 ⊤ false none none] ∧
      (∀ c ∈ candidatesOf
        [mkTask "A" 0 5 30 ⊤ false none none, mkTask "B" 0 5 20 ⊤ false none none],
        n.abs_deadline ≤ c.abs_deadline) ∧
      (∀ c ∈ candidatesOf
        [mkTask "A" 0 5 30 ⊤ false none none, mkTask "B" 0 5 20 ⊤ false none none],
        edfCmp n c ≠ .gt))) ∧
    chooseNextWithBoost "edf"
        [mkTask "A" 0 5 30 ⊤ false none none, mkTask "B" 0 5 20 ⊤ false none none] =
      some (mkTask "B" 0 5 20 ⊤ false none none) :=
  ⟨c4_edf_and_fallback_selection "edf"
      [mkTask "A" 0 5 30 ⊤ false none none, mkTask "B" 0 5 20 ⊤ false none none]
      (Or.inl rfl),
    by with_unfolding_all decide⟩

/-- Claim C3: under the `hybrid` and `energy-hybrid` disciplines, if some
candidate is effectively critical (`is_critical` OR boosted this tick), the
selected task is an effectively-critical candidate minimal for the RMS
ordering (smaller period wins — the infinite sentinel loses to any finite
period — ties by smaller `arrival`, then smaller id); otherwise selection is
EDF over all candidates. -/
theorem c3_hybrid_selection (sched : String) (ready : List Task)
    (hs : sched = "hybrid" ∨ sched = "energy-hybrid") :
    ((candidatesOf ready).filter effCrit ≠ [] →
      ∃ n, chooseNextWithBoost sched ready = some n ∧
        n ∈ (candidatesOf ready).filter effCrit ∧
        (∀ c ∈ (candidatesOf ready).filter effCrit, n.period ≤ c.period) ∧
        (∀ c ∈ (candidatesOf ready).filter effCrit, rmsCmp n c ≠ .gt)) ∧
    ((candidatesOf ready).filter effCrit = [] →
      (chooseNextWithBoost sched ready = none ↔ candidatesOf ready = []) ∧
      (∀ n, chooseNextWithBoost sched ready = some n →
        n ∈ candidatesOf ready ∧
        (∀ c ∈ candidatesOf ready, n.abs_deadline ≤ c.abs_deadline) ∧
        (∀ c ∈ candidatesOf ready, edfCmp n c ≠ .gt))) := by
  rw [chooseNext_hybrid_eq sched ready hs]
  constructor
  · intro hne
    have hemp : ¬ ((candidatesOf ready).filter effCrit).isEmpty = true := by
      rw [List.isEmpty_iff]; exact hne
    rw [if_neg hemp]
    cases hp : pickMin rmsCmp ((candidatesOf ready).filter effCrit) with
    | none => exact absurd (pickMin_eq_none.mp hp) hne
    | some n =>
      obtain ⟨hmem, hall⟩ := pickMin_rms_spec hp
      refine ⟨n, rfl, hmem, ?_, hall⟩
      intro c hc
      have := hall c hc
      unfold rmsCmp at this
      exact first_key_le this
  · intro hemp
    have hemp' : ((candidatesOf ready).filter effCrit).isEmpty = true := by
      rw [List.isEmpty_iff]; exact hemp
    rw [if_pos hemp']
    refine ⟨pickMin_eq_none, ?_⟩
    intro n hn
    obtain ⟨hmem, hall⟩ := pickMin_edf_spec hn
    refine ⟨hmem, ?_, hall⟩
    intro c hc
    have := hall c hc
    unfold edfCmp at this
    exact first_key_le this

/-- Witness for C3: a concrete ready list under `hybrid` with one critical
candidate (finite period 5) and one non-critical candidate; the critical one
is selected by RMS among the effectively-critical subset. -/
theorem c3_hybrid_selection_witness :
    (((candidatesOf [mkTask "C" 0 5 50 ((5 : ℚ) : WithTop ℚ) true none none,
        mkTask "D" 0 5 20 ⊤ false none none]).filter effCrit ≠ [] →
      ∃ n, chooseNextWithBoost "hybrid"
          [mkTask "C" 0 5 50 ((5 : ℚ) : WithTop ℚ) true none none,
           mkTask "D" 0 5 20 ⊤ false none none] = some n ∧
        n ∈ (candidatesOf [mkTask "C" 0 5 50 ((5 : ℚ) : WithTop ℚ) true none none,
          mkTask "D" 0 5 20 ⊤ false none none]).filter effCrit ∧
        (∀ c ∈ (candidatesOf [mkTask "C" 0 5 50 ((5 : ℚ) : WithTop ℚ) true none none,
          mkTask "D" 0 5 20 ⊤ false none none]).filter effCrit, n.period ≤ c.period) ∧
        (∀ c ∈ (candidatesOf [mkTask "C" 0 5 50 ((5 : ℚ) : WithTop ℚ) true none none,
          mkTask "D" 0 5 20 ⊤ false none none]).filter effCrit, rmsCmp n c ≠ .gt)) ∧
    ((candidatesOf [mkTask "C" 0 5 50 ((5 : ℚ) : WithTop ℚ) true none none,
        mkTask "D" 0 5 20 ⊤ false none none]).filter effCrit = [] →
      (chooseNextWithBoost "hybrid"
          [mkTask "C" 0 5 50 ((5 : ℚ) : WithTop ℚ) true none none,
           mkTask "D" 0 5 20 ⊤ false none none] = none ↔
        candidatesOf [mkTask "C" 0 5 50 ((5 : ℚ) : WithTop ℚ) true none none,
          mkTask "D" 0 5 20 ⊤ false none none] = []) ∧
      (∀ n, chooseNextWithBoost "hybrid"
          [mkTask "C" 0 5 50 ((5 : ℚ) : WithTop ℚ) true none none,
           mkTask "D" 0 5 20 ⊤ false none none] = some n →
        n ∈ candidatesOf [mkTask "C" 0 5 50 ((5 : ℚ) : WithTop ℚ) true none none,
          mkTask "D" 0 5 20 ⊤ false none none] ∧
        (∀ c ∈ candidatesOf [mkTask "C" 0 5 50 ((5 : ℚ) : WithTop ℚ) true none none,
          mkTask "D" 0 5 20 ⊤ false none none], n.abs_deadline ≤ c.abs_deadline) ∧
        (∀ c ∈ candidatesOf [mkTask "C" 0 5 50 ((5 : ℚ) : WithTop ℚ) true none none,
          mkTask "D" 0 5 20 ⊤ false none none], edfCmp n c ≠ .gt)))) ∧
    chooseNextWithBoost "hybrid"
        [mkTask "C" 0 5 50 ((5 : ℚ) : WithTop ℚ) true none none,
         mkTask "D" 0 5 20 ⊤ false none none] =
      some (mkTask "C" 0 5 50 ((5 : ℚ) : WithTop ℚ) true none none) :=
  ⟨c3_hybrid_selection "hybrid"
      [mkTask "C" 0 5 50 ((5 : ℚ) : WithTop ℚ) true none none,
       mkTask "D" 0 5 20 ⊤ false none none] (Or.inl rfl),
    by with_unfolding_all decide⟩

/-! ## Frame lemmas for the tick phases -/

/-- `midPhase` adds the chosen CPU state's power draw to the energy
accumulator and records the chosen CPU state, in every branch (running,
blocked, or idle). -/
theorem midPhase_energy_cpu (cfg : Config) (s : SimState) :
    (midPhase cfg s).totalEnergy = s.totalEnergy + (tickCpu cfg s).power ∧
    (midPhase cfg s).cpuState = tickCpu cfg s := by
  unfold midPhase
  cases hsel : selectedOf cfg s with
  | none => exact ⟨rfl, rfl⟩
  | some n =>
    dsimp only
    by_cases hb : blockedOn s.resources n
    · rw [if_pos hb]; exact ⟨rfl, rfl⟩
    · rw [if_neg hb]; exact ⟨rfl, rfl⟩

/-- `midPhase` leaves the clock, the ready list and the timeline unchanged. -/
theorem midPhase_frame (cfg : Config) (s : SimState) :
    (midPhase cfg s).time = s.time ∧ (midPhase cfg s).ready = s.ready ∧
    (midPhase cfg s).timeline = s.timeline := by
  unfold midPhase
  cases hsel : selectedOf cfg s with
  | none => exact ⟨rfl, rfl, rfl⟩
  | some n =>
    dsimp only
    by_cases hb : blockedOn s.resources n
    · rw [if_pos hb]; exact ⟨rfl, rfl, rfl⟩
    · rw [if_neg hb]; exact ⟨rfl, rfl, rfl⟩

/-! ## Claim C6: the DVFS governor -/

/-- Claim C6: under `energy-hybrid`, the tick's CPU state is LOW when no task
is selected, and otherwise LOW iff the selected task's laxity
`abs_deadline - (currentTime + remaining)` (computed from the current,
non-speed-adjusted `remaining`) exceeds the threshold; under every other
discipline it is HIGH.  The chosen state is what the tick body actually
uses: its power is added to `totalEnergy` and it is recorded as the tick's
`cpuState`. -/
theorem c6_dvfs_governor (cfg : Config) (s : SimState) :
    (cfg.sched = "energy-hybrid" →
      (selectedOf cfg s = none → tickCpu cfg s = CPU_LOW) ∧
      (∀ n, selectedOf cfg s = some n →
        tickCpu cfg s =
          (if cfg.laxityThreshold < computeLaxity s.time n then CPU_LOW else CPU_HIGH))) ∧
    (cfg.sched ≠ "energy-hybrid" → tickCpu cfg s = CPU_HIGH) ∧
    (midPhase cfg s).totalEnergy = s.totalEnergy + (tickCpu cfg s).power ∧
    (midPhase cfg s).cpuState = tickCpu cfg s := by
  refine ⟨?_, ?_, (midPhase_energy_cpu cfg s).1, (midPhase_energy_cpu cfg s).2⟩
  · intro he
    constructor
    · intro hn
      unfold tickCpu dvfsChoose
      rw [hn, if_pos he]
    · intro n hn
      unfold tickCpu dvfsChoose
      rw [hn, if_pos he]
  · intro he
    unfold tickCpu dvfsChoose
    rw [if_neg he]

/-- Witness for C6: a concrete `energy-hybrid` state with one lazy selected
task (laxity `100 - (0 + 5) = 95 > 20`), on which the governor chooses LOW
and charges its power draw; the theorem is applied at that state and the
antecedents are discharged concretely. -/
theorem c6_dvfs_governor_witness :
    tickCpu ⟨"energy-hybrid", 20⟩
      ⟨[{mkTask "L" 0 5 100 ⊤ false none none with admitted := true}], ["L"], 0, none,
        [], [], [], 0, 0, CPU_HIGH⟩ = CPU_LOW ∧
    (midPhase ⟨"energy-hybrid", 20⟩
      ⟨[{mkTask "L" 0 5 100 ⊤ false none none with admitted := true}], ["L"], 0, none,
        [], [], [], 0, 0, CPU_HIGH⟩).totalEnergy =
      0 + (tickCpu ⟨"energy-hybrid", 20⟩
        ⟨[{mkTask "L" 0 5 100 ⊤ false none none with admitted := true}], ["L"], 0, none,
          [], [], [], 0, 0, CPU_HIGH⟩).power := by
  have h := c6_dvfs_governor ⟨"energy-hybrid", 20⟩
    ⟨[{mkTask "L" 0 5 100 ⊤ false none none with admitted := true}], ["L"], 0, none,
      [], [], [], 0, 0, CPU_HIGH⟩
  refine ⟨?_, h.2.2.1⟩
  have h2 := (h.1 rfl).2 {mkTask "L" 0 5 100 ⊤ false none none with admitted := true}
    (by with_unfolding_all decide)
  rw [h2, if_pos (by with_unfolding_all decide)]

/-! ## Claim C1: empty task set (division by zero in the metrics block) -/

/-- Claim C1 is violated by the code: on the empty task collection the run
terminates and returns a result bundle, but the metrics block divides by
`tasks.length = 0`, so both `deadlineMissRatio` and `avgTurnaround` are
`NaN` (JS `0 / 0`), not `0`.  The failing input is the empty task list (any
scheduler; here `edf`, `totalTime = 5`, `laxityThreshold = 20`). -/
theorem c1_empty_taskset_nan :
    (runSim [] "edf" 5 20).deadlineMissRatio = JNum.nan ∧
    (runSim [] "edf" 5 20).avgTurnaround = JNum.nan ∧
    (runSim [] "edf" 5 20).totalSimTime = 5 ∧
    (runSim [] "edf" 5 20).totalEnergy = 10 := by
  with_unfolding_all decide

/-! ## Claim C7: the timeline snapshot and early termination -/

/-- Counterexample to claim C7: a single task with `execution = 1` completes
on tick 0, the early-termination break fires before the `timeline.push`, and
the run ends with an empty timeline even though tick 0 was simulated (one
busy tick, an admission, a run step and a completion were logged).  The
claim's assertion that the snapshot is appended "regardless of early
termination on the final iterating tick" is therefore false. -/
theorem c7_counterexample_missing_final_snapshot :
    (runSim [mkTask "A" 0 1 10 ⊤ false none none] "edf" 5 20).timeline = [] ∧
    (runSim [mkTask "A" 0 1 10 ⊤ false none none] "edf" 5 20).cpuBusyTime = 1 ∧
    (runSim [mkTask "A" 0 1 10 ⊤ false none none] "edf" 5 20).log =
      [.admittedT 0 "A", .runStep 0 "A" 1 0, .completedT 1 "A" 10] := by
  with_unfolding_all decide

/-- One tick of the loop leaves the clock and the timeline unchanged (they
are updated only by `advanceTick`, which runs after the break test). -/
theorem simTick_time_timeline (cfg : Config) (s : SimState) :
    (simTick cfg s).1.time = s.time ∧ (simTick cfg s).1.timeline = s.timeline := by
  have h := midPhase_frame cfg (arbPhase (admitPhase s))
  exact ⟨h.1, h.2.2⟩

/-- The timeline of a run lists consecutive tick numbers starting at the
initial clock and stopping at the final clock (exclusive): one snapshot per
completed (non-breaking) iteration. -/
theorem simLoop_timeline_times (cfg : Config) :
    ∀ (fuel : ℕ) (s : SimState),
      (simLoop cfg fuel s).timeline.map (fun e => e.time) =
        s.timeline.map (fun e => e.time) ++
          List.range' s.time ((simLoop cfg fuel s).time - s.time) ∧
      s.time ≤ (simLoop cfg fuel s).time := by
  intro fuel
  induction fuel with
  | zero =>
    intro s
    simp [simLoop]
  | succ n ih =>
    intro s
    have hf := simTick_time_timeline cfg s
    unfold simLoop
    cases ht : simTick cfg s with
    | mk s1 broke =>
      rw [ht] at hf
      cases broke with
      | true =>
        dsimp only
        rw [hf.1, hf.2]
        simp
      | false =>
        dsimp only
        have ihs := ih (advanceTick s1)
        have hadvt : (advanceTick s1).time = s.time + 1 := by
          show s1.time + 1 = s.time + 1
          rw [hf.1]
        have hadvl : (advanceTick s1).timeline =
            s1.timeline ++ [⟨s1.time, s1.running, s1.cpuState.name⟩] := rfl
        constructor
        · rw [ihs.1, hadvl, hadvt, hf.1, hf.2]
          have hle : s.time + 1 ≤ (simLoop cfg n (advanceTick s1)).time := by
            rw [← hadvt]; exact ihs.2
          have harith : (simLoop cfg n (advanceTick s1)).time - s.time =
              ((simLoop cfg n (advanceTick s1)).time - (s.time + 1)) + 1 := by
            omega
          rw [harith, List.map_append, List.append_assoc]
          congr 1
        · have hle : s.time + 1 ≤ (simLoop cfg n (advanceTick s1)).time := by
            rw [← hadvt]; exact ihs.2
          omega

/-- Claim C7, amended: a timeline snapshot is appended for every tick the
loop finishes without breaking — the snapshot times are exactly
`0, 1, ..., finalClock - 1` — but the final iterating tick of a run that
terminates early gets no snapshot (the break fires before the push); only
runs that reach the full horizon have a snapshot for every tick
`0 .. totalTime`. -/
theorem c7_amended_timeline_per_tick (tasks : List Task) (sched : String)
    (totalTime : ℕ) (th : ℚ) :
    (runSim tasks sched totalTime th).timeline.map (fun e => e.time) =
      List.range ((simLoop ⟨sched, th⟩ (totalTime + 1) (initState tasks)).time) := by
  have h := simLoop_timeline_times ⟨sched, th⟩ (totalTime + 1) (initState tasks)
  have : (runSim tasks sched totalTime th).timeline =
      (simLoop ⟨sched, th⟩ (totalTime + 1) (initState tasks)).timeline := rfl
  rw [this, h.1]
  show List.range' 0 _ = _
  rw [← List.range_eq_range']
  congr 1

/-! ## Claim C2: a resource-blocked selected task idles the whole tick -/

/-- A task resolved from the ready list is a task of the state and its id is
on the ready list. -/
theorem mem_resolveReady {s : SimState} {n : Task} (h : n ∈ resolveReady s) :
    n ∈ s.tasks ∧ n.id ∈ s.ready := by
  unfold resolveReady at h
  rw [List.mem_filterMap] at h
  obtain ⟨id, hid, hfind⟩ := h
  have hmem := List.mem_of_find?_eq_some hfind
  have hp := List.find?_some hfind
  simp only [decide_eq_true_eq] at hp
  exact ⟨hmem, by rw [hp]; exact hid⟩

/-- With pairwise-distinct task ids, a task of the list is determined by its
id. -/
theorem id_unique {ts : List Task} (hids : (ts.map Task.id).Nodup)
    {a b : Task} (ha : a ∈ ts) (hb : b ∈ ts) (h : a.id = b.id) : a = b :=
  List.inj_on_of_nodup_map hids ha hb h

/-- Getting from a composition of two task-list maps. -/
theorem get_map_map (f g : Task → Task) (l : List Task) (i : ℕ)
    (hi : i < l.length) (hi' : i < ((l.map f).map g).length) :
    ((l.map f).map g).get ⟨i, hi'⟩ = g (f (l.get ⟨i, hi⟩)) := by
  have h1 : i < (l.map f).length := by simpa using hi
  have e1 : ((l.map f).map g).get ⟨i, hi'⟩ = g ((l.map f).get ⟨i, h1⟩) :=
    List.get_map g
  have e2 : (l.map f).get ⟨i, h1⟩ = f (l.get ⟨i, hi⟩) := List.get_map f
  rw [e1, e2]

/-- Claim C2: at a tick whose selected task needs a resource owned by a
different task, the selected task does not run and the whole tick is idle:
the busy counter is unchanged, `running` is null (so the tick's timeline
snapshot records no running task), the resource table is unchanged, the only
log line the phase emits is the block line (so no acquisition, run step or
completion happens — no reselection among remaining Ready candidates), no
task's `remaining`, `history` or `completed` changes, the blocked task's
`wait_time` rises by 2 (the `+1` at the block plus the `+1` of the ready
sweep, which also covers the blocked task), and the tick does not trigger
early termination.  `s` is the tick's state after admission and arbitration,
where the source performs selection and the block test (lines 239–331). -/
theorem c2_resource_block_idles_tick (cfg : Config) (s : SimState) (n : Task) (r o : String)
    (hids : (s.tasks.map Task.id).Nodup)
    (hsel : selectedOf cfg s = some n)
    (hneeds : n.needs_resource = some r)
    (hown : resGet s.resources r = some o)
    (hoo : o ≠ n.id)
    (hadm : n.admitted = true) :
    (execPhase cfg s).1.cpuBusyTime = s.cpuBusyTime ∧
    (execPhase cfg s).1.running = none ∧
    (execPhase cfg s).1.resources = s.resources ∧
    (execPhase cfg s).1.log = s.log ++ [LogEntry.blockedOnRes s.time n.id r] ∧
    (execPhase cfg s).2 = false ∧
    (execPhase cfg s).1.tasks.length = s.tasks.length ∧
    ∀ (i : ℕ) (hi : i < s.tasks.length) (hi' : i < (execPhase cfg s).1.tasks.length),
      ((execPhase cfg s).1.tasks.get ⟨i, hi'⟩).remaining = (s.tasks.get ⟨i, hi⟩).remaining ∧
      ((execPhase cfg s).1.tasks.get ⟨i, hi'⟩).history = (s.tasks.get ⟨i, hi⟩).history ∧
      ((execPhase cfg s).1.tasks.get ⟨i, hi'⟩).completed = (s.tasks.get ⟨i, hi⟩).completed ∧
      ((s.tasks.get ⟨i, hi⟩).id = n.id →
        ((execPhase cfg s).1.tasks.get ⟨i, hi'⟩).wait_time =
          (s.tasks.get ⟨i, hi⟩).wait_time + 2) := by
  have hcand := chooseNext_mem hsel
  obtain ⟨hmemt, hidr⟩ := mem_resolveReady hcand.1
  have hncomp : n.completed = false := hcand.2.2
  have hblocked : blockedOn s.resources n = true := by
    unfold blockedOn
    rw [hneeds]
    show (match resGet s.resources r with
      | none => false
      | some owner => decide (owner ≠ n.id)) = true
    rw [hown]
    show decide (o ≠ n.id) = true
    exact decide_eq_true hoo
  have hmid : midPhase cfg s =
      blockBranch { s with
        totalEnergy := s.totalEnergy + (tickCpu cfg s).power,
        cpuState := tickCpu cfg s } n := by
    unfold midPhase
    rw [hsel]
    dsimp only
    rw [if_pos hblocked]
  have hexec : (execPhase cfg s).1 =
      sweepPhase s.ready (blockBranch { s with
        totalEnergy := s.totalEnergy + (tickCpu cfg s).power,
        cpuState := tickCpu cfg s } n) := by
    unfold execPhase
    rw [hmid]
  have htasks : (execPhase cfg s).1.tasks =
      (s.tasks.map (fun t => if t.id = n.id then waitBump t else t)).map
        (sweepAdj s.ready none) := by
    rw [hexec]
    rfl
  have hcontains : s.ready.contains n.id = true := List.elem_iff.mpr hidr
  refine ⟨?_, ?_, ?_, ?_, ?_, ?_, ?_⟩
  · rw [hexec]; rfl
  · rw [hexec]; rfl
  · rw [hexec]; rfl
  · rw [hexec]
    show s.log ++ [LogEntry.blockedOnRes s.time n.id (n.needs_resource.getD "")] = _
    rw [hneeds]
    rfl
  · show breakCond (execPhase cfg s).1.tasks = false
    rw [htasks]
    have hbn : (fun t => if t.id = n.id then waitBump t else t) n = waitBump n :=
      if_pos rfl
    have hmm : sweepAdj s.ready none (waitBump n) ∈
        (s.tasks.map (fun t => if t.id = n.id then waitBump t else t)).map
          (sweepAdj s.ready none) := by
      have h1 := List.mem_map_of_mem
        (fun t => if t.id = n.id then waitBump t else t) hmemt
      have h2 := List.mem_map_of_mem (sweepAdj s.ready none) h1
      rwa [hbn] at h2
    have hprop : (fun t => !t.completed && t.admitted)
        (sweepAdj s.ready none (waitBump n)) = true := by
      show (!(sweepAdj s.ready none (waitBump n)).completed &&
        (sweepAdj s.ready none (waitBump n)).admitted) = true
      unfold sweepAdj
      split
      · show (!n.completed && n.admitted) = true
        rw [hncomp, hadm]
        rfl
      · show (!n.completed && n.admitted) = true
        rw [hncomp, hadm]
        rfl
    unfold breakCond
    cases hf : List.filter (fun t => !t.completed && t.admitted)
        ((s.tasks.map (fun t => if t.id = n.id then waitBump t else t)).map
          (sweepAdj s.ready none)) with
    | nil =>
      exfalso
      have hin : sweepAdj s.ready none (waitBump n) ∈
          List.filter (fun t => !t.completed && t.admitted)
            ((s.tasks.map (fun t => if t.id = n.id then waitBump t else t)).map
              (sweepAdj s.ready none)) :=
        List.mem_filter.mpr ⟨hmm, hprop⟩
      rw [hf] at hin
      cases hin
    | cons a as => rfl
  · rw [htasks]
    simp
  · intro i hi hi'
    have hib : i < ((s.tasks.map (fun t => if t.id = n.id then waitBump t else t)).map
        (sweepAdj s.ready none)).length := by
      rw [← htasks]
      exact hi'
    have hget : (execPhase cfg s).1.tasks.get ⟨i, hi'⟩ =
        sweepAdj s.ready none
          ((fun t => if t.id = n.id then waitBump t else t) (s.tasks.get ⟨i, hi⟩)) := by
      have h1 : (execPhase cfg s).1.tasks.get ⟨i, hi'⟩ =
          ((s.tasks.map (fun t => if t.id = n.id then waitBump t else t)).map
            (sweepAdj s.ready none)).get ⟨i, hib⟩ :=
        List.get_of_eq htasks ⟨i, hi'⟩
      rw [h1]
      exact get_map_map _ _ _ i hi _
    by_cases hcase : (s.tasks.get ⟨i, hi⟩).id = n.id
    · have heqn : s.tasks.get ⟨i, hi⟩ = n :=
        id_unique hids (List.get_mem s.tasks i hi) hmemt hcase
      have hbn : (fun t => if t.id = n.id then waitBump t else t) n = waitBump n :=
        if_pos rfl
      rw [hget, heqn, hbn]
      have hcond : (s.ready.contains (waitBump n).id && !(waitBump n).completed &&
          decide ((none : Option String) ≠ some (waitBump n).id)) = true := by
        show (s.ready.contains n.id && !n.completed &&
          decide ((none : Option String) ≠ some n.id)) = true
        rw [hcontains, hncomp]
        simp
      unfold sweepAdj
      rw [if_pos hcond]
      exact ⟨rfl, rfl, rfl, fun _ => rfl⟩
    · have hbn : (fun t => if t.id = n.id then waitBump t else t)
          (s.tasks.get ⟨i, hi⟩) = s.tasks.get ⟨i, hi⟩ :=
        if_neg hcase
      rw [hget, hbn]
      refine ⟨?_, ?_, ?_, fun h => absurd h hcase⟩ <;>
        (unfold sweepAdj; split <;> rfl)

/-- Witness for C2: task `B` (deadline 20, needs `R1`) is selected under
`edf` ahead of task `A` (deadline 30), but `R1` is owned by `A`, so the tick
goes fully idle: `running` is null, the only new log line is the block line,
and no busy tick is recorded. -/
theorem c2_resource_block_idles_tick_witness :
    (((⟨[{mkTask "A" 0 5 30 ⊤ false none none with admitted := true},
          {mkTask "B" 0 5 20 ⊤ false none (some "R1") with admitted := true}],
        ["A", "B"], 0, none, [("R1", "A")], [], [], 0, 0, CPU_HIGH⟩ : SimState).tasks.map
          Task.id).Nodup ∧
      selectedOf ⟨"edf", 20⟩
        ⟨[{mkTask "A" 0 5 30 ⊤ false none none with admitted := true},
          {mkTask "B" 0 5 20 ⊤ false none (some "R1") with admitted := true}],
        ["A", "B"], 0, none, [("R1", "A")], [], [], 0, 0, CPU_HIGH⟩ =
        some {mkTask "B" 0 5 20 ⊤ false none (some "R1") with admitted := true} ∧
      ("A" : String) ≠ "B") ∧
    (execPhase ⟨"edf", 20⟩
      ⟨[{mkTask "A" 0 5 30 ⊤ false none none with admitted := true},
        {mkTask "B" 0 5 20 ⊤ false none (some "R1") with admitted := true}],
      ["A", "B"], 0, none, [("R1", "A")], [], [], 0, 0, CPU_HIGH⟩).1.running = none ∧
    (execPhase ⟨"edf", 20⟩
      ⟨[{mkTask "A" 0 5 30 ⊤ false none none with admitted := true},
        {mkTask "B" 0 5 20 ⊤ false none (some "R1") with admitted := true}],
      ["A", "B"], 0, none, [("R1", "A")], [], [], 0, 0, CPU_HIGH⟩).1.log =
      [LogEntry.blockedOnRes 0 "B" "R1"] ∧
    (execPhase ⟨"edf", 20⟩
      ⟨[{mkTask "A" 0 5 30 ⊤ false none none with admitted := true},
        {mkTask "B" 0 5 20 ⊤ false none (some "R1") with admitted := true}],
      ["A", "B"], 0, none, [("R1", "A")], [], [], 0, 0, CPU_HIGH⟩).1.cpuBusyTime = 0 := by
  have h := c2_resource_block_idles_tick ⟨"edf", 20⟩
    ⟨[{mkTask "A" 0 5 30 ⊤ false none none with admitted := true},
      {mkTask "B" 0 5 20 ⊤ false none (some "R1") with admitted := true}],
    ["A", "B"], 0, none, [("R1", "A")], [], [], 0, 0, CPU_HIGH⟩
    {mkTask "B" 0 5 20 ⊤ false none (some "R1") with admitted := true} "R1" "A"
    (by with_unfolding_all decide) (by with_unfolding_all decide) rfl
    (by with_unfolding_all decide) (by with_unfolding_all decide) rfl
  exact ⟨⟨by with_unfolding_all decide, by with_unfolding_all decide,
    by with_unfolding_all decide⟩, h.2.1, h.2.2.2.1, h.1⟩

/-! ## Claim C8: the arbiter's score comparison ignores boosts -/

/-- The owner id a single waiter boosts, if any, computed with the static
scores the source actually uses: the waiter is looked up, its needed
resource's owner is looked up, and the owner is boosted exactly when
`score(waiter) > score(owner)`. -/
def boostTargetOf (tasks : List Task) (resources : List (String × String))
    (wid : String) : Option String :=
  match tasks.find? (fun u => u.id = wid) with
  | none => none
  | some w =>
    match w.needs_resource with
    | none => none
    | some r =>
      match resGet resources r with
      | none => none
      | some oid =>
        match tasks.find? (fun u => u.id = oid) with
        | none => none
        | some owner => if score owner < score w then some oid else none

/-- `boostTargetOf` over a boost-flag-remapping of the task list is
unchanged: every lookup it performs ignores the `boosted` field. -/
theorem boostTargetOf_map (tasks : List Task) (resources : List (String × String))
    (g : String → Bool) (wid : String) :
    boostTargetOf (tasks.map (fun t => { t with boosted := g t.id })) resources wid =
      boostTargetOf tasks resources wid := by
  unfold boostTargetOf
  rw [List.find?_map]
  have hp : ((fun u => decide (u.id = wid)) ∘ (fun t => { t with boosted := g t.id })) =
      (fun u : Task => decide (u.id = wid)) := rfl
  rw [hp]
  cases tasks.find? (fun u => u.id = wid) with
  | none => rfl
  | some w =>
    dsimp only [Option.map]
    cases w.needs_resource with
    | none => rfl
    | some r =>
      dsimp only
      cases resGet resources r with
      | none => rfl
      | some oid =>
        dsimp only
        rw [List.find?_map]
        have hp2 : ((fun u => decide (u.id = oid)) ∘ (fun t => { t with boosted := g t.id })) =
            (fun u : Task => decide (u.id = oid)) := rfl
        rw [hp2]
        cases tasks.find? (fun u => u.id = oid) with
        | none => rfl
        | some owner => rfl

/-- One waiter step of the arbiter fold, evaluated on a task list whose
`boosted` flags are an arbitrary remapping of the originals: the step
boosts exactly `boostTargetOf` (computed with static scores) and logs
accordingly. -/
theorem arbStep_on_mapped (time : ℕ) (resources : List (String × String))
    (tasks : List Task) (g : String → Bool) (lg : List LogEntry) (wid : String) :
    arbStep time resources (tasks.map (fun t => { t with boosted := g t.id }), lg) wid =
      (match boostTargetOf tasks resources wid with
       | none => (tasks.map (fun t => { t with boosted := g t.id }), lg)
       | some oid =>
         (tasks.map (fun t => { t with boosted := g t.id || decide (t.id = oid) }),
          lg ++ [LogEntry.boost time oid wid])) := by
  unfold arbStep boostTargetOf
  rw [List.find?_map]
  have hp : ((fun u => decide (u.id = wid)) ∘ (fun t => { t with boosted := g t.id })) =
      (fun u : Task => decide (u.id = wid)) := rfl
  rw [hp]
  cases tasks.find? (fun u => u.id = wid) with
  | none => rfl
  | some w =>
    dsimp only [Option.map]
    cases w.needs_resource with
    | none => rfl
    | some r =>
      dsimp only
      cases resGet resources r with
      | none => rfl
      | some oid =>
        dsimp only
        rw [List.find?_map]
        have hp2 : ((fun u => decide (u.id = oid)) ∘ (fun t => { t with boosted := g t.id })) =
            (fun u : Task => decide (u.id = oid)) := rfl
        rw [hp2]
        cases tasks.find? (fun u => u.id = oid) with
        | none => rfl
        | some owner =>
          dsimp only [Option.map]
          have hsw : score ({ w with needs_resource := some r, boosted := g w.id } : Task) =
              score w := rfl
          have hso : score ({ owner with boosted := g owner.id } : Task) = score owner := rfl
          rw [hsw, hso]
          by_cases hs : score owner < score w
          · rw [if_pos hs, if_pos hs]
            have htl : updateById (tasks.map (fun t => { t with boosted := g t.id }))
                oid (fun t => { t with boosted := true }) =
                tasks.map (fun t => { t with boosted := g t.id || decide (t.id = oid) }) := by
              unfold updateById
              rw [List.map_map]
              apply List.map_congr_left
              intro t _
              by_cases h : t.id = oid
              · simp [h]
              · simp [h]
            rw [htl]
          · rw [if_neg hs, if_neg hs]

/-- The arbiter fold on a boost-remapped task list: final boosts are the
initial ones OR-ed with the static-score boost targets of the processed
waiters, and the log lists one boost line per triggering waiter, in waiter
order. -/
theorem arbFold_spec (time : ℕ) (resources : List (String × String)) (tasks : List Task) :
    ∀ (ready : List String) (g : String → Bool) (lg : List LogEntry),
      List.foldl (arbStep time resources)
        (tasks.map (fun t => { t with boosted := g t.id }), lg) ready =
      (tasks.map (fun t =>
        { t with boosted := g t.id || ready.any (fun wid =>
            decide (boostTargetOf tasks resources wid = some t.id)) }),
       lg ++ ready.filterMap (fun wid =>
          (boostTargetOf tasks resources wid).map
            (fun oid => LogEntry.boost time oid wid))) := by
  intro ready
  induction ready with
  | nil =>
    intro g lg
    simp
  | cons wid ws ih =>
    intro g lg
    rw [List.foldl_cons, arbStep_on_mapped]
    cases hb : boostTargetOf tasks resources wid with
    | none =>
      dsimp only
      rw [ih g lg]
      have hmapeq : (tasks.map (fun t =>
          { t with boosted := g t.id || ws.any (fun w =>
              decide (boostTargetOf tasks resources w = some t.id)) })) =
          tasks.map (fun t =>
          { t with boosted := g t.id || (wid :: ws).any (fun w =>
              decide (boostTargetOf tasks resources w = some t.id)) }) := by
        apply List.map_congr_left
        intro t _
        have : decide (boostTargetOf tasks resources wid = some t.id) = false := by
          rw [hb]
          simp
        rw [List.any_cons, this, Bool.false_or]
      have hlogeq : lg ++ ws.filterMap (fun w =>
          (boostTargetOf tasks resources w).map (fun oid => LogEntry.boost time oid w)) =
          lg ++ (wid :: ws).filterMap (fun w =>
            (boostTargetOf tasks resources w).map (fun oid => LogEntry.boost time oid w)) := by
        rw [List.filterMap_cons]
        rw [hb]
        rfl
      rw [hmapeq, hlogeq]
    | some oid =>
      dsimp only
      rw [ih (fun x => g x || decide (x = oid)) (lg ++ [LogEntry.boost time oid wid])]
      have hmapeq : (tasks.map (fun t =>
          { t with boosted := (g t.id || decide (t.id = oid)) || ws.any (fun w =>
              decide (boostTargetOf tasks resources w = some t.id)) })) =
          tasks.map (fun t =>
          { t with boosted := g t.id || (wid :: ws).any (fun w =>
              decide (boostTargetOf tasks resources w = some t.id)) }) := by
        apply List.map_congr_left
        intro t _
        have h1 : decide (boostTargetOf tasks resources wid = some t.id) =
            decide (t.id = oid) := by
          rw [hb]
          simp [eq_comm]
        rw [List.any_cons, h1, Bool.or_assoc]
      have hlogeq : (lg ++ [LogEntry.boost time oid wid]) ++ ws.filterMap (fun w =>
          (boostTargetOf tasks resources w).map (fun o => LogEntry.boost time o w)) =
          lg ++ (wid :: ws).filterMap (fun w =>
            (boostTargetOf tasks resources w).map (fun o => LogEntry.boost time o w)) := by
        rw [List.filterMap_cons, hb]
        rw [List.append_assoc]
        rfl
      rw [hmapeq, hlogeq]

/-- The boost-aware score asserted by claim C8 (and §4.2 of the spec): a
task already boosted within the tick would receive the criticality term
too.  The source's `applyPriorityInheritance` does NOT use this score — it
reads only the static `is_critical` flag — so this definition exists solely
to state the claim. -/
def scoreBoostAware (t : Task) : ℚ :=
  (if t.is_critical || t.boosted then 1000000 else 0) - t.abs_deadline

/-- The claim's version of the arbiter waiter step, identical to `arbStep`
except that both scores are computed with `scoreBoostAware` (so a boost set
earlier in the same tick counts as critical for later comparisons). -/
def arbStepSpecC8 (time : ℕ) (resources : List (String × String))
    (acc : List Task × List LogEntry) (wid : String) : List Task × List LogEntry :=
  match acc.1.find? (fun t => t.id = wid) with
  | none => acc
  | some waiter =>
    match waiter.needs_resource with
    | none => acc
    | some r =>
      match resGet resources r with
      | none => acc
      | some ownerId =>
        match acc.1.find? (fun t => t.id = ownerId) with
        | none => acc
        | some owner =>
          if scoreBoostAware owner < scoreBoostAware waiter then
            (updateById acc.1 ownerId (fun t => { t with boosted := true }),
             acc.2 ++ [.boost time ownerId wid])
          else acc

/-- The claim's version of the whole arbiter pass, following the claim's
words ("a task that was marked boosted earlier within the same tick counts
as critical ... when it is compared"). -/
def applyPriorityInheritanceSpecC8 (time : ℕ) (tasks : List Task) (ready : List String)
    (resources : List (String × String)) : List Task × List LogEntry :=
  ready.foldl (arbStepSpecC8 time resources)
    (tasks.map (fun t => { t with boosted := false }), [])

/-- Counterexample to claim C8.  Waiters are processed in ready order
`W, O, P`: critical task `W` (deadline 10) waits on `R1` owned by
non-critical `O` (deadline 20), so `O` is boosted; then `O` itself waits on
`R2` owned by non-critical `P` (deadline 5).  Under the claim's reading the
already-boosted `O` counts as critical (score `10^6 − 20 > −5`) and `P`
would be boosted; the source compares `O` with its static score
(`−20 > −5` is false) and leaves `P` unboosted.  The two semantics produce
different boost sets on this input, so the claim is false of the code. -/
theorem c8_counterexample_boost_ignored_in_scores :
    ((applyPriorityInheritance 0
        [{mkTask "W" 0 5 10 ⊤ true none (some "R1") with admitted := true},
         {mkTask "O" 0 5 20 ⊤ false none (some "R2") with admitted := true},
         {mkTask "P" 0 5 5 ⊤ false none none with admitted := true}]
        ["W", "O", "P"] [("R1", "O"), ("R2", "P")]).1.map
        (fun t => (t.id, t.boosted)) = [("W", false), ("O", true), ("P", false)]) ∧
    ((applyPriorityInheritanceSpecC8 0
        [{mkTask "W" 0 5 10 ⊤ true none (some "R1") with admitted := true},
         {mkTask "O" 0 5 20 ⊤ false none (some "R2") with admitted := true},
         {mkTask "P" 0 5 5 ⊤ false none none with admitted := true}]
        ["W", "O", "P"] [("R1", "O"), ("R2", "P")]).1.map
        (fun t => (t.id, t.boosted)) = [("W", false), ("O", true), ("P", true)]) := by
  with_unfolding_all decide

/-- Claim C8, amended: the arbiter's score comparison uses the static
`is_critical` flag only — a boost set earlier in the same tick does not
enter any score.  Consequently the pass is order-independent: a task ends
the pass boosted exactly when some waiter on the ready list needs a
resource the task owns and the waiter's static score strictly exceeds the
task's static score (`boostTargetOf`), and one boost line is logged per
triggering waiter, in ready order. -/
theorem c8_amended_static_score_characterization (time : ℕ) (tasks : List Task)
    (ready : List String) (resources : List (String × String)) :
    applyPriorityInheritance time tasks ready resources =
      (tasks.map (fun t =>
        { t with boosted := ready.any (fun wid =>
            decide (boostTargetOf tasks resources wid = some t.id)) }),
       ready.filterMap (fun wid =>
          (boostTargetOf tasks resources wid).map
            (fun oid => LogEntry.boost time oid wid))) := by
  unfold applyPriorityInheritance
  exact arbFold_spec time resources tasks ready (fun _ => false) []

/-! ## Claim C9: the normalizer's coercions -/

/-- Counterexample to claim C9: a descriptor whose `arrival` field is a
truthy non-numeric value (e.g. the string `"abc"`, whose `Number(...)` image
is `NaN`) normalizes to `arrival = NaN`, not to `0` — the `||` fallback only
catches falsy values, and `Number("abc")` is `NaN`.  The derived
`abs_deadline` is then `NaN` as well, so the normalized task carries an
undefined value, contradicting "never to an undefined value". -/
theorem c9_counterexample_truthy_nan :
    (normalizeTask { rawDefault "X" with arrival := RawVal.val true JNum.nan }).arrival =
      JNum.nan ∧
    JNum.nan ≠ JNum.fin 0 ∧
    (normalizeTask { rawDefault "X" with
      arrival := RawVal.val true JNum.nan }).abs_deadline = JNum.nan := by
  with_unfolding_all decide

/-- Claim C9, amended: normalization never fails and produces exactly one
task per descriptor in input order; a missing or otherwise falsy numeric
field coerces to `0` or to its documented default (`deadline_relative`
defaults to the normalized execution; `period` absent or null becomes the
infinite sentinel, which loses RMS comparisons to any finite period); a
numeric field holding an actual number keeps its value; but a present
truthy non-numeric field coerces through `Number(...)` to `NaN` rather than
to `0`. -/
theorem c9_amended_normalizer (ts : List RawTask) :
    (normalizeTasks ts).length = ts.length ∧
    (∀ (i : ℕ) (hi : i < ts.length) (hi' : i < (normalizeTasks ts).length),
      (normalizeTasks ts).get ⟨i, hi'⟩ = normalizeTask (ts.get ⟨i, hi⟩)) ∧
    (∀ t : RawTask,
      (t.arrival.truthy = false → (normalizeTask t).arrival = JNum.fin 0) ∧
      (t.execution.truthy = false → t.exec.truthy = false →
        (normalizeTask t).exec = JNum.fin 0 ∧ (normalizeTask t).remaining = JNum.fin 0) ∧
      (t.deadline.truthy = false → t.deadline_relative.truthy = false →
        (normalizeTask t).deadline_relative = (normalizeTask t).exec) ∧
      ((t.period = RawVal.nullv ∨ t.period = RawVal.undef) →
        (normalizeTask t).period = JNum.inf) ∧
      (∀ q : ℚ, q ≠ 0 → t.arrival = RawVal.val true (JNum.fin q) →
        (normalizeTask t).arrival = JNum.fin q) ∧
      (t.arrival = RawVal.val true JNum.nan → (normalizeTask t).arrival = JNum.nan)) := by
  refine ⟨by simp [normalizeTasks], ?_, ?_⟩
  · intro i hi hi'
    unfold normalizeTasks
    exact List.get_map normalizeTask
  · intro t
    refine ⟨?_, ?_, ?_, ?_, ?_, ?_⟩
    · intro h
      unfold normalizeTask jsOr
      rw [h]
      rfl
    · intro h1 h2
      unfold normalizeTask jsOr
      rw [h1, h2]
      exact ⟨rfl, rfl⟩
    · intro h1 h2
      unfold normalizeTask jsOr
      rw [h1, h2]
      rfl
    · intro h
      unfold normalizeTask
      rcases h with h | h <;> rw [h] <;> rfl
    · intro q hq h
      unfold normalizeTask jsOr
      rw [h]
      show (if (RawVal.val true (JNum.fin q)).truthy = true then
        RawVal.val true (JNum.fin q) else rawNum 0).toNumber = JNum.fin q
      rfl
    · intro h
      unfold normalizeTask jsOr
      rw [h]
      rfl

/-- Witness for C9 (amended): a two-descriptor input — one descriptor with
every numeric field absent, one with a truthy non-numeric `arrival` — is
normalized to two tasks in order, with the defaults and the `NaN` outcome
evaluated concretely. -/
theorem c9_amended_normalizer_witness :
    ((normalizeTasks [rawDefault "A",
        { rawDefault "B" with arrival := RawVal.val true JNum.nan }]).length = 2 ∧
      (∀ (i : ℕ) (hi : i < ([rawDefault "A",
          { rawDefault "B" with arrival := RawVal.val true JNum.nan }] : List RawTask).length)
        (hi' : i < (normalizeTasks [rawDefault "A",
          { rawDefault "B" with arrival := RawVal.val true JNum.nan }]).length),
        (normalizeTasks [rawDefault "A",
          { rawDefault "B" with arrival := RawVal.val true JNum.nan }]).get ⟨i, hi'⟩ =
          normalizeTask (([rawDefault "A",
            { rawDefault "B" with arrival := RawVal.val true JNum.nan }] :
              List RawTask).get ⟨i, hi⟩)) ∧
      (∀ t : RawTask,
        (t.arrival.truthy = false → (normalizeTask t).arrival = JNum.fin 0) ∧
        (t.execution.truthy = false → t.exec.truthy = false →
          (normalizeTask t).exec = JNum.fin 0 ∧ (normalizeTask t).remaining = JNum.fin 0) ∧
        (t.deadline.truthy = false → t.deadline_relative.truthy = false →
          (normalizeTask t).deadline_relative = (normalizeTask t).exec) ∧
        ((t.period = RawVal.nullv ∨ t.period = RawVal.undef) →
          (normalizeTask t).period = JNum.inf) ∧
        (∀ q : ℚ, q ≠ 0 → t.arrival = RawVal.val true (JNum.fin q) →
          (normalizeTask t).arrival = JNum.fin q) ∧
        (t.arrival = RawVal.val true JNum.nan → (normalizeTask t).arrival = JNum.nan))) ∧
    (normalizeTask (rawDefault "A")).arrival = JNum.fin 0 ∧
    (normalizeTask { rawDefault "B" with
      arrival := RawVal.val true JNum.nan }).arrival = JNum.nan :=
  ⟨c9_amended_normalizer [rawDefault "A",
      { rawDefault "B" with arrival := RawVal.val true JNum.nan }],
    by with_unfolding_all decide, by with_unfolding_all decide⟩

/-! ## Resource-table membership lemmas -/

theorem mem_resSet {res : List (String × String)} {k v : String} {p : String × String} :
    p ∈ resSet res k v ↔ p = (k, v) ∨ (p ∈ res ∧ p.1 ≠ k) := by
  unfold resSet
  rw [List.mem_cons, List.mem_filter]
  simp only [decide_eq_true_eq]

theorem mem_resDel {res : List (String × String)} {k : String} {p : String × String} :
    p ∈ resDel res k ↔ p ∈ res ∧ p.1 ≠ k := by
  unfold resDel
  rw [List.mem_filter]
  simp only [decide_eq_true_eq]

theorem find?_key_filter_ne {res : List (String × String)} {k k2 : String} (h : k2 ≠ k) :
    (res.filter (fun p => p.1 ≠ k)).find? (fun p => p.1 = k2) =
      res.find? (fun p => p.1 = k2) := by
  induction res with
  | nil => rfl
  | cons a l ih =>
    by_cases ha : a.1 = k
    · rw [List.filter_cons_of_neg (by simp [ha]),
        List.find?_cons_of_neg _ (by simp [ha, Ne.symm h]), ih]
    · by_cases hb : a.1 = k2
      · rw [List.filter_cons_of_pos (by simp [ha]), List.find?_cons_of_pos _ (by simp [hb]),
          List.find?_cons_of_pos _ (by simp [hb])]
      · rw [List.filter_cons_of_pos (by simp [ha]), List.find?_cons_of_neg _ (by simp [hb]),
          List.find?_cons_of_neg _ (by simp [hb]), ih]

theorem resGet_resSet_self {res : List (String × String)} {k v : String} :
    resGet (resSet res k v) k = some v := by
  unfold resGet resSet
  rw [List.find?_cons_of_pos _ (by simp)]
  rfl

theorem resGet_resDel_self {res : List (String × String)} {k : String} :
    resGet (resDel res k) k = none := by
  unfold resGet resDel
  rw [List.find?_eq_none.mpr]
  · rfl
  · intro p hp
    have := (List.mem_filter.mp hp).2
    simp only [decide_eq_true_eq] at this ⊢
    exact this

theorem resGet_resSet_ne {res : List (String × String)} {k v k2 : String} (h : k2 ≠ k) :
    resGet (resSet res k v) k2 = resGet res k2 := by
  unfold resGet resSet
  rw [List.find?_cons_of_neg _ (by simp [Ne.symm h]), find?_key_filter_ne h]

theorem resGet_resDel_ne {res : List (String × String)} {k k2 : String} (h : k2 ≠ k) :
    resGet (resDel res k) k2 = resGet res k2 := by
  unfold resGet resDel
  rw [find?_key_filter_ne h]

/-- Any entry of the post-run resource table is either an original entry or
one of the selected task's own acquisitions (its needed or held resource). -/
theorem mem_runResources {cpu : CpuState} {res : List (String × String)} {n : Task}
    {p : String × String} (hp : p ∈ runResources cpu res n) :
    p ∈ res ∨ (p.2 = n.id ∧ (n.needs_resource = some p.1 ∨ n.holds_resource = some p.1)) := by
  unfold runResources at hp
  cases hn : n.needs_resource with
  | none =>
    cases hh : n.holds_resource with
    | none =>
      rw [hn, hh] at hp
      dsimp only at hp
      by_cases hc : n.remaining - cpu.speed ≤ epsDone
      · rw [if_pos hc] at hp
        exact Or.inl hp
      · rw [if_neg hc] at hp
        exact Or.inl hp
    | some h =>
      rw [hn, hh] at hp
      dsimp only at hp
      by_cases hc : n.remaining - cpu.speed ≤ epsDone
      · rw [if_pos hc, resGet_resSet_self, if_pos rfl] at hp
        have h2 := (mem_resDel.mp hp).1
        rcases mem_resSet.mp h2 with h3 | h3
        · exact Or.inr ⟨by rw [h3], Or.inr (by rw [h3])⟩
        · exact Or.inl h3.1
      · rw [if_neg hc] at hp
        rcases mem_resSet.mp hp with h3 | h3
        · exact Or.inr ⟨by rw [h3], Or.inr (by rw [h3])⟩
        · exact Or.inl h3.1
  | some r =>
    cases hh : n.holds_resource with
    | none =>
      rw [hn, hh] at hp
      dsimp only at hp
      by_cases hc : n.remaining - cpu.speed ≤ epsDone
      · rw [if_pos hc, resGet_resSet_self, if_pos rfl] at hp
        have h2 := (mem_resDel.mp hp).1
        rcases mem_resSet.mp h2 with h3 | h3
        · exact Or.inr ⟨by rw [h3], Or.inl (by rw [h3])⟩
        · exact Or.inl h3.1
      · rw [if_neg hc] at hp
        rcases mem_resSet.mp hp with h3 | h3
        · exact Or.inr ⟨by rw [h3], Or.inl (by rw [h3])⟩
        · exact Or.inl h3.1
    | some h =>
      rw [hn, hh] at hp
      dsimp only at hp
      have hmem12 : ∀ q : String × String, q ∈ resSet (resSet res r n.id) h n.id →
          q ∈ res ∨ (q.2 = n.id ∧ (some r = some q.1 ∨ some h = some q.1)) := by
        intro q hq
        rcases mem_resSet.mp hq with h3 | h3
        · exact Or.inr ⟨by rw [h3], Or.inr (by rw [h3])⟩
        · rcases mem_resSet.mp h3.1 with h4 | h4
          · exact Or.inr ⟨by rw [h4], Or.inl (by rw [h4])⟩
          · exact Or.inl h4.1
      by_cases hc : n.remaining - cpu.speed ≤ epsDone
      · rw [if_pos hc, resGet_resSet_self, if_pos rfl] at hp
        by_cases hd : resGet (resDel (resSet (resSet res r n.id) h n.id) h) r = some n.id
        · rw [if_pos hd] at hp
          exact hmem12 p (mem_resDel.mp (mem_resDel.mp hp).1).1
        · rw [if_neg hd] at hp
          exact hmem12 p (mem_resDel.mp hp).1
      · rw [if_neg hc] at hp
        exact hmem12 p hp

/-- When the run step completes the task, no entry of the post-run resource
table maps to the task's id — its acquisitions are released and, assuming
every pre-existing entry valued with its id sits under one of its own two
resource names, those are released too. -/
theorem runResources_clears_self {cpu : CpuState} {res : List (String × String)} {n : Task}
    (hc : n.remaining - cpu.speed ≤ epsDone)
    (hres : ∀ p ∈ res, p.2 = n.id →
      (n.holds_resource = some p.1 ∨ n.needs_resource = some p.1)) :
    ∀ p ∈ runResources cpu res n, p.2 ≠ n.id := by
  intro p hp hpn
  unfold runResources at hp
  cases hn : n.needs_resource with
  | none =>
    cases hh : n.holds_resource with
    | none =>
      rw [hn, hh] at hp
      dsimp only at hp
      rw [if_pos hc] at hp
      rcases hres p hp hpn with h3 | h3
      · rw [hh] at h3; cases h3
      · rw [hn] at h3; cases h3
    | some h =>
      rw [hn, hh] at hp
      dsimp only at hp
      rw [if_pos hc, resGet_resSet_self, if_pos rfl] at hp
      obtain ⟨hp2, hne⟩ := mem_resDel.mp hp
      rcases mem_resSet.mp hp2 with h3 | h3
      · exact hne (by rw [h3])
      · rcases hres p h3.1 hpn with h4 | h4
        · rw [hh] at h4
          exact hne (by injection h4 with h5; rw [h5])
        · rw [hn] at h4; cases h4
  | some r =>
    cases hh : n.holds_resource with
    | none =>
      rw [hn, hh] at hp
      dsimp only at hp
      rw [if_pos hc, resGet_resSet_self, if_pos rfl] at hp
      obtain ⟨hp2, hne⟩ := mem_resDel.mp hp
      rcases mem_resSet.mp hp2 with h3 | h3
      · exact hne (by rw [h3])
      · rcases hres p h3.1 hpn with h4 | h4
        · rw [hh] at h4; cases h4
        · rw [hn] at h4
          exact hne (by injection h4 with h5; rw [h5])
    | some h =>
      rw [hn, hh] at hp
      dsimp only at hp
      rw [if_pos hc, resGet_resSet_self, if_pos rfl] at hp
      by_cases hhr : h = r
      · subst hhr
        rw [resGet_resDel_self] at hp
        rw [if_neg (by simp)] at hp
        obtain ⟨hp2, hne⟩ := mem_resDel.mp hp
        rcases mem_resSet.mp hp2 with h3 | h3
        · exact hne (by rw [h3])
        · rcases mem_resSet.mp h3.1 with h4 | h4
          · exact hne (by rw [h4])
          · rcases hres p h4.1 hpn with h5 | h5
            · rw [hh] at h5
              exact hne (by injection h5 with h6; rw [h6])
            · rw [hn] at h5
              exact hne (by injection h5 with h6; rw [h6])
      · have hget : resGet (resDel (resSet (resSet res r n.id) h n.id) h) r = some n.id := by
          rw [resGet_resDel_ne (Ne.symm hhr), resGet_resSet_ne (Ne.symm hhr),
            resGet_resSet_self]
        rw [if_pos hget] at hp
        obtain ⟨hp2, hner⟩ := mem_resDel.mp hp
        obtain ⟨hp3, hneh⟩ := mem_resDel.mp hp2
        rcases mem_resSet.mp hp3 with h3 | h3
        · exact hneh (by rw [h3])
        · rcases mem_resSet.mp h3.1 with h4 | h4
          · exact hner (by rw [h4])
          · rcases hres p h4.1 hpn with h5 | h5
            · rw [hh] at h5
              exact hneh (by injection h5 with h6; rw [h6])
            · rw [hn] at h5
              exact hner (by injection h5 with h6; rw [h6])

/-! ## Claim C5: completion happens exactly once, with cleanup -/

/-- The well-formedness invariant of a simulator state: task ids are
pairwise distinct, every id on the ready list belongs to an admitted task,
completed tasks are admitted, and every resource-table entry's owner id
belongs to a task whose `holds_resource` or `needs_resource` names the
entry's key. -/
def WF (s : SimState) : Prop :=
  (s.tasks.map Task.id).Nodup ∧
  (∀ id ∈ s.ready, ∃ t ∈ s.tasks, t.id = id ∧ t.admitted = true) ∧
  (∀ t ∈ s.tasks, t.completed = true → t.admitted = true) ∧
  (∀ p ∈ s.resources, ∀ t ∈ s.tasks, t.id = p.2 →
    (t.holds_resource = some p.1 ∨ t.needs_resource = some p.1))

/-- The arbitration phase only recomputes `boosted` flags (and appends log
lines): its task list is a boost-flag remap of the input. -/
theorem arbPhase_tasks (X : SimState) :
    (arbPhase X).tasks = X.tasks.map (fun t =>
      { t with boosted := X.ready.any (fun wid =>
          decide (boostTargetOf X.tasks X.resources wid = some t.id)) }) := by
  show (applyPriorityInheritance X.time X.tasks X.ready X.resources).1 = _
  unfold applyPriorityInheritance
  exact congrArg Prod.fst (arbFold_spec X.time X.resources X.tasks X.ready (fun _ => false) [])

/-- Admission does not change a task's id. -/
theorem admAdj_id (time : ℕ) (t : Task) : (admAdj time t).id = t.id := by
  unfold admAdj
  split <;> rfl

/-- The whole effect of admission and arbitration on a single task: the
admission flag is updated and the boost flag is recomputed (as some function
of the task's id alone). -/
def preAdj (time : ℕ) (B : String → Bool) (t : Task) : Task :=
  { admAdj time t with boosted := B t.id }

/-- The task list entering selection is the input task list with admission
applied and the `boosted` flags recomputed from the ids alone. -/
theorem simTick_pre_shape (s : SimState) :
    ∃ B : String → Bool,
      (arbPhase (admitPhase s)).tasks = s.tasks.map (preAdj s.time B) := by
  refine ⟨fun x => (admitPhase s).ready.any (fun wid =>
    decide (boostTargetOf (admitPhase s).tasks (admitPhase s).resources wid = some x)), ?_⟩
  rw [arbPhase_tasks]
  have h1 : (admitPhase s).tasks = s.tasks.map (admAdj s.time) := rfl
  rw [h1, List.map_map]
  apply List.map_congr_left
  intro t _
  show ({ admAdj s.time t with boosted := (admitPhase s).ready.any (fun wid =>
      decide (boostTargetOf (s.tasks.map (admAdj s.time)) (admitPhase s).resources wid
        = some (admAdj s.time t).id)) } : Task) = _
  rw [admAdj_id]
  rfl

/-- `preAdj` changes only the `admitted` and `boosted` flags. -/
theorem preAdj_proj (time : ℕ) (B : String → Bool) (t : Task) :
    (preAdj time B t).id = t.id ∧ (preAdj time B t).completed = t.completed ∧
    (preAdj time B t).remaining = t.remaining ∧
    (preAdj time B t).completion_time = t.completion_time ∧
    (preAdj time B t).wait_time = t.wait_time ∧
    (preAdj time B t).history = t.history ∧
    (preAdj time B t).holds_resource = t.holds_resource ∧
    (preAdj time B t).needs_resource = t.needs_resource ∧
    (preAdj time B t).abs_deadline = t.abs_deadline := by
  unfold preAdj admAdj
  split <;> exact ⟨rfl, rfl, rfl, rfl, rfl, rfl, rfl, rfl, rfl⟩

/-- Admission never revokes the admitted flag. -/
theorem preAdj_admitted_mono (time : ℕ) (B : String → Bool) {t : Task}
    (h : t.admitted = true) : (preAdj time B t).admitted = true := by
  unfold preAdj admAdj
  split
  · rfl
  · exact h

/-- A task admitted this tick comes out admitted. -/
theorem preAdj_admitted_of_now (time : ℕ) (B : String → Bool) {t : Task}
    (h : admitsNow time t = true) : (preAdj time B t).admitted = true := by
  unfold preAdj admAdj
  rw [if_pos h]

/-- The wait-time sweep never touches a completed task. -/
theorem sweepAdj_of_completed (r : List String) (run : Option String) {t : Task}
    (h : t.completed = true) : sweepAdj r run t = t := by
  unfold sweepAdj
  rw [h]
  simp

/-- The wait-time sweep changes only `wait_time`. -/
theorem sweepAdj_proj (r : List String) (run : Option String) (t : Task) :
    (sweepAdj r run t).id = t.id ∧ (sweepAdj r run t).completed = t.completed ∧
    (sweepAdj r run t).remaining = t.remaining ∧
    (sweepAdj r run t).completion_time = t.completion_time ∧
    (sweepAdj r run t).admitted = t.admitted ∧
    (sweepAdj r run t).holds_resource = t.holds_resource ∧
    (sweepAdj r run t).needs_resource = t.needs_resource := by
  unfold sweepAdj waitBump
  split <;> exact ⟨rfl, rfl, rfl, rfl, rfl, rfl, rfl⟩

/-- The per-step execution update: its effect on every field the completion
contract mentions.  `remaining` drops by the speed; the task completes
exactly when the post-decrement remaining is within `epsDone`, and then
`completion_time` is (re)set to `time + 1`. -/
theorem execTask_spec (time : ℕ) (v : ℚ) (t : Task) :
    (execTask time v t).id = t.id ∧
    (execTask time v t).admitted = t.admitted ∧
    (execTask time v t).holds_resource = t.holds_resource ∧
    (execTask time v t).needs_resource = t.needs_resource ∧
    (execTask time v t).remaining = t.remaining - v ∧
    (execTask time v t).completed = (decide (t.remaining - v ≤ epsDone) || t.completed) ∧
    (execTask time v t).completion_time =
      (if t.remaining - v ≤ epsDone then some (time + 1) else t.completion_time) := by
  simp only [execTask]
  by_cases hs : t.started
  · rw [if_pos hs]
    by_cases hr : t.remaining - v ≤ epsDone
    · rw [if_pos hr, if_pos hr, decide_eq_true hr]
      exact ⟨rfl, rfl, rfl, rfl, rfl, rfl, rfl⟩
    · rw [if_neg hr, if_neg hr, decide_eq_false hr]
      exact ⟨rfl, rfl, rfl, rfl, rfl, rfl, rfl⟩
  · rw [if_neg hs]
    rw [show ({ t with started := true, start_time := some time } : Task).remaining
        = t.remaining from rfl]
    by_cases hr : t.remaining - v ≤ epsDone
    · rw [if_pos hr, if_pos hr, decide_eq_true hr]
      exact ⟨rfl, rfl, rfl, rfl, rfl, rfl, rfl⟩
    · rw [if_neg hr, if_neg hr, decide_eq_false hr]
      exact ⟨rfl, rfl, rfl, rfl, rfl, rfl, rfl⟩

/-- Collapse three stacked task-list maps. -/
theorem map3_collapse (f g h : Task → Task) (l : List Task) :
    ((l.map f).map g).map h = l.map (fun t => h (g (f t))) := by
  rw [List.map_map, List.map_map]
  rfl

/-- Getting from a single task-list map. -/
theorem get_map1 (f : Task → Task) (l : List Task) (i : ℕ)
    (hi : i < l.length) (hi' : i < (l.map f).length) :
    (l.map f).get ⟨i, hi'⟩ = f (l.get ⟨i, hi⟩) := List.get_map f

/-- The ready list entering selection: the old ready list plus the ids
admitted this tick. -/
theorem arb_admit_ready (s : SimState) :
    (arbPhase (admitPhase s)).ready =
      s.ready ++ (s.tasks.filter (admitsNow s.time)).map (fun t => t.id) := rfl

/-- On an idle tick the body leaves tasks, resources and the (stale)
`running` value untouched. -/
theorem midPhase_none_frame (cfg : Config) (s : SimState)
    (hsel : selectedOf cfg s = none) :
    (midPhase cfg s).tasks = s.tasks ∧ (midPhase cfg s).resources = s.resources ∧
    (midPhase cfg s).running = s.running := by
  unfold midPhase
  rw [hsel]
  exact ⟨rfl, rfl, rfl⟩

/-- On a blocked tick the body only bumps the blocked task's wait time and
nulls `running`. -/
theorem midPhase_blocked_frame (cfg : Config) (s : SimState) (n : Task)
    (hsel : selectedOf cfg s = some n) (hb : blockedOn s.resources n = true) :
    (midPhase cfg s).tasks = updateById s.tasks n.id waitBump ∧
    (midPhase cfg s).resources = s.resources ∧
    (midPhase cfg s).running = none := by
  unfold midPhase
  rw [hsel]
  dsimp only
  rw [if_pos hb]
  exact ⟨rfl, rfl, rfl⟩

/-- On a running tick the body executes one step of the selected task and
applies the run branch's resource-table update. -/
theorem midPhase_run_frame (cfg : Config) (s : SimState) (n : Task)
    (hsel : selectedOf cfg s = some n) (hb : blockedOn s.resources n = false) :
    (midPhase cfg s).tasks = updateById s.tasks n.id (execTask s.time (tickCpu cfg s).speed) ∧
    (midPhase cfg s).resources = runResources (tickCpu cfg s) s.resources n ∧
    (midPhase cfg s).running = some n.id := by
  unfold midPhase
  rw [hsel]
  dsimp only
  rw [if_neg (by simp [hb])]
  exact ⟨rfl, rfl, rfl⟩

/-- The ready list after a whole tick: the old ready list plus the ids
admitted this tick (nothing is ever removed). -/
theorem simTick_ready (cfg : Config) (s : SimState) :
    (simTick cfg s).1.ready =
      s.ready ++ (s.tasks.filter (admitsNow s.time)).map (fun t => t.id) := by
  show (sweepPhase (arbPhase (admitPhase s)).ready
      (midPhase cfg (arbPhase (admitPhase s)))).ready = _
  have h1 : (sweepPhase (arbPhase (admitPhase s)).ready
      (midPhase cfg (arbPhase (admitPhase s)))).ready =
      (midPhase cfg (arbPhase (admitPhase s))).ready := rfl
  rw [h1, (midPhase_frame cfg _).2.1]
  exact arb_admit_ready s

/-- A selected task is the admission/boost image of a unique input task that
is not completed, has work remaining, and whose id is on the ready list. -/
theorem selected_decomp {cfg : Config} {s : SimState} {B : String → Bool} {n : Task}
    (hB : (arbPhase (admitPhase s)).tasks = s.tasks.map (preAdj s.time B))
    (hsel : selectedOf cfg (arbPhase (admitPhase s)) = some n) :
    ∃ u ∈ s.tasks, n = preAdj s.time B u ∧ u.completed = false ∧ 0 < u.remaining ∧
      u.id ∈ s.ready ++ (s.tasks.filter (admitsNow s.time)).map (fun t => t.id) := by
  obtain ⟨hmem, hrem, hcomp⟩ := chooseNext_mem hsel
  obtain ⟨hin, hid⟩ := mem_resolveReady hmem
  rw [hB] at hin
  obtain ⟨u, hu, hEq⟩ := List.mem_map.mp hin
  refine ⟨u, hu, hEq.symm, ?_, ?_, ?_⟩
  · rw [← hEq, (preAdj_proj s.time B u).2.1] at hcomp
    exact hcomp
  · rw [← hEq, (preAdj_proj s.time B u).2.2.1] at hrem
    exact hrem
  · rw [← hEq, (preAdj_proj s.time B u).1] at hid
    exact hid

/-- A task whose id is on the post-admission ready list is admitted after the
admission/boost phase. -/
theorem preAdj_ready_admitted {s : SimState}
    (hw1 : (s.tasks.map Task.id).Nodup)
    (hw2 : ∀ id ∈ s.ready, ∃ t ∈ s.tasks, t.id = id ∧ t.admitted = true)
    {B : String → Bool} {u : Task} (hu : u ∈ s.tasks)
    (hid : u.id ∈ s.ready ++ (s.tasks.filter (admitsNow s.time)).map (fun t => t.id)) :
    (preAdj s.time B u).admitted = true := by
  rcases List.mem_append.mp hid with h | h
  · obtain ⟨t, ht, htid, hta⟩ := hw2 _ h
    have heq : t = u := id_unique hw1 ht hu htid
    exact preAdj_admitted_mono _ _ (heq ▸ hta)
  · obtain ⟨w, hw, hwid⟩ := List.mem_map.mp h
    have hw' := List.mem_filter.mp hw
    have heq : w = u := id_unique hw1 hw'.1 hu hwid
    exact preAdj_admitted_of_now _ _ (heq ▸ hw'.2)

/-- The branch-independent half of the completion contract: whichever branch
the body takes, a tick acts on the task list as an id-preserving pointwise
map that freezes completed tasks, so well-formedness is preserved, ids and
positions survive, completed tasks keep all their fields, are never put
back on the ready list, and are never selected. -/
theorem c5_core (cfg : Config) (s : SimState)
    (hw1 : (s.tasks.map Task.id).Nodup)
    (hw2 : ∀ id ∈ s.ready, ∃ t ∈ s.tasks, t.id = id ∧ t.admitted = true)
    (hw3 : ∀ t ∈ s.tasks, t.completed = true → t.admitted = true)
    (hw4 : ∀ p ∈ s.resources, ∀ t ∈ s.tasks, t.id = p.2 →
      (t.holds_resource = some p.1 ∨ t.needs_resource = some p.1))
    (B : String → Bool) (ψ : Task → Task)
    (hB : (arbPhase (admitPhase s)).tasks = s.tasks.map (preAdj s.time B))
    (hT : (simTick cfg s).1.tasks = s.tasks.map (fun t => ψ (preAdj s.time B t)))
    (hψid : ∀ t, (ψ t).id = t.id)
    (hψadm : ∀ t, (ψ t).admitted = t.admitted)
    (hψholds : ∀ t, (ψ t).holds_resource = t.holds_resource)
    (hψneeds : ∀ t, (ψ t).needs_resource = t.needs_resource)
    (hfrozen : ∀ t ∈ s.tasks, t.completed = true →
      ψ (preAdj s.time B t) = preAdj s.time B t)
    (hadm3 : ∀ t ∈ s.tasks, (ψ (preAdj s.time B t)).completed = true →
      (ψ (preAdj s.time B t)).admitted = true)
    (hRes : ∀ p ∈ (simTick cfg s).1.resources,
      p ∈ s.resources ∨ ∃ u ∈ s.tasks, p.2 = u.id ∧
        (u.holds_resource = some p.1 ∨ u.needs_resource = some p.1)) :
    WF (simTick cfg s).1 ∧
    (simTick cfg s).1.tasks.length = s.tasks.length ∧
    ∀ (i : ℕ) (hi : i < s.tasks.length) (hi' : i < (simTick cfg s).1.tasks.length),
      ((simTick cfg s).1.tasks.get ⟨i, hi'⟩).id = (s.tasks.get ⟨i, hi⟩).id ∧
      ((s.tasks.get ⟨i, hi⟩).completed = true →
        ((simTick cfg s).1.tasks.get ⟨i, hi'⟩).completed = true ∧
        ((simTick cfg s).1.tasks.get ⟨i, hi'⟩).completion_time
            = (s.tasks.get ⟨i, hi⟩).completion_time ∧
        ((simTick cfg s).1.tasks.get ⟨i, hi'⟩).remaining
            = (s.tasks.get ⟨i, hi⟩).remaining ∧
        ((simTick cfg s).1.tasks.get ⟨i, hi'⟩).wait_time
            = (s.tasks.get ⟨i, hi⟩).wait_time ∧
        ((simTick cfg s).1.tasks.get ⟨i, hi'⟩).history
            = (s.tasks.get ⟨i, hi⟩).history ∧
        (simTick cfg s).1.ready.count (s.tasks.get ⟨i, hi⟩).id
            = s.ready.count (s.tasks.get ⟨i, hi⟩).id ∧
        ∀ n, selectedOf cfg (arbPhase (admitPhase s)) = some n →
          n.id ≠ (s.tasks.get ⟨i, hi⟩).id) := by
  have hgets : ∀ (i : ℕ) (hi : i < s.tasks.length)
      (hi' : i < (simTick cfg s).1.tasks.length),
      (simTick cfg s).1.tasks.get ⟨i, hi'⟩
        = ψ (preAdj s.time B (s.tasks.get ⟨i, hi⟩)) := by
    intro i hi hi'
    rw [List.get_of_eq hT ⟨i, hi'⟩]
    exact get_map1 _ s.tasks i hi _
  have hlen : (simTick cfg s).1.tasks.length = s.tasks.length := by
    rw [hT]
    simp
  have hids : (simTick cfg s).1.tasks.map Task.id = s.tasks.map Task.id := by
    rw [hT, List.map_map]
    apply List.map_congr_left
    intro t _
    show (ψ (preAdj s.time B t)).id = t.id
    rw [hψid, (preAdj_proj s.time B t).1]
  have hmemdec : ∀ x ∈ (simTick cfg s).1.tasks,
      ∃ t ∈ s.tasks, x = ψ (preAdj s.time B t) := by
    intro x hx
    rw [hT] at hx
    obtain ⟨t, ht, hEq⟩ := List.mem_map.mp hx
    exact ⟨t, ht, hEq.symm⟩
  have hready3 := simTick_ready cfg s
  have hnosel : ∀ t ∈ s.tasks, t.completed = true →
      ∀ n, selectedOf cfg (arbPhase (admitPhase s)) = some n → n.id ≠ t.id := by
    intro t ht hc n hsel hcontra
    obtain ⟨u, hu, hnu, hucomp, _, _⟩ := selected_decomp hB hsel
    have hid' : u.id = t.id := by
      rw [← hcontra, hnu, (preAdj_proj s.time B u).1]
    have heq : u = t := id_unique hw1 hu ht hid'
    rw [heq] at hucomp
    exact absurd (hc.symm.trans hucomp) (by simp)
  have hcount : ∀ t ∈ s.tasks, t.completed = true →
      (simTick cfg s).1.ready.count t.id = s.ready.count t.id := by
    intro t ht hc
    rw [hready3, List.count_append]
    have hz : ((s.tasks.filter (admitsNow s.time)).map (fun t => t.id)).count t.id = 0 := by
      rw [List.count_eq_zero]
      intro hmem
      obtain ⟨w, hw, hwid⟩ := List.mem_map.mp hmem
      have hw' := List.mem_filter.mp hw
      have heq : w = t := id_unique hw1 hw'.1 ht hwid
      have hnow : admitsNow s.time t = true := heq ▸ hw'.2
      have hadm := hw3 t ht hc
      unfold admitsNow at hnow
      rw [hadm] at hnow
      simp at hnow
    rw [hz]
    exact Nat.add_zero _
  refine ⟨⟨?_, ?_, ?_, ?_⟩, hlen, ?_⟩
  · rw [show ((simTick cfg s).1.tasks.map Task.id) = s.tasks.map Task.id from hids]
    exact hw1
  · intro id hid
    rw [hready3] at hid
    rcases List.mem_append.mp hid with h | h
    · obtain ⟨t, ht, htid, hta⟩ := hw2 _ h
      refine ⟨ψ (preAdj s.time B t), ?_, ?_, ?_⟩
      · rw [hT]
        exact List.mem_map.mpr ⟨t, ht, rfl⟩
      · rw [hψid, (preAdj_proj s.time B t).1]
        exact htid
      · rw [hψadm]
        exact preAdj_admitted_mono _ _ hta
    · obtain ⟨w, hw, hwid⟩ := List.mem_map.mp h
      have hw' := List.mem_filter.mp hw
      refine ⟨ψ (preAdj s.time B w), ?_, ?_, ?_⟩
      · rw [hT]
        exact List.mem_map.mpr ⟨w, hw'.1, rfl⟩
      · rw [hψid, (preAdj_proj s.time B w).1]
        exact hwid
      · rw [hψadm]
        exact preAdj_admitted_of_now _ _ hw'.2
  · intro x hx hxc
    obtain ⟨t, ht, hEq⟩ := hmemdec x hx
    rw [hEq] at hxc ⊢
    exact hadm3 t ht hxc
  · intro p hp x hx hxid
    obtain ⟨t, ht, hEq⟩ := hmemdec x hx
    have htid : t.id = p.2 := by
      rw [← hxid, hEq, hψid, (preAdj_proj s.time B t).1]
    have hfh : x.holds_resource = t.holds_resource := by
      rw [hEq, hψholds, (preAdj_proj s.time B t).2.2.2.2.2.2.1]
    have hfn : x.needs_resource = t.needs_resource := by
      rw [hEq, hψneeds, (preAdj_proj s.time B t).2.2.2.2.2.2.2.1]
    rcases hRes p hp with hpold | ⟨u, hu, hpu, hures⟩
    · rcases hw4 p hpold t ht htid with h | h
      · left
        rw [hfh]
        exact h
      · right
        rw [hfn]
        exact h
    · have heq : t = u := id_unique hw1 ht hu (by rw [htid, hpu])
      rcases hures with h | h
      · left
        rw [hfh, heq]
        exact h
      · right
        rw [hfn, heq]
        exact h
  · intro i hi hi'
    have hg := hgets i hi hi'
    have htmem : s.tasks.get ⟨i, hi⟩ ∈ s.tasks := List.get_mem s.tasks i hi
    constructor
    · rw [hg, hψid, (preAdj_proj s.time B _).1]
    · intro hc
      have hfro := hfrozen _ htmem hc
      rw [hg, hfro]
      refine ⟨?_, (preAdj_proj s.time B _).2.2.2.1, (preAdj_proj s.time B _).2.2.1,
        (preAdj_proj s.time B _).2.2.2.2.1, (preAdj_proj s.time B _).2.2.2.2.2.1,
        hcount _ htmem hc, hnosel _ htmem hc⟩
      rw [(preAdj_proj s.time B _).2.1]
      exact hc

/-- Getting from a list known to be a pointwise map. -/
theorem shape_get {l l' : List Task} (Φ : Task → Task) (hT : l' = l.map Φ)
    (i : ℕ) (hi : i < l.length) (hi' : i < l'.length) :
    l'.get ⟨i, hi'⟩ = Φ (l.get ⟨i, hi⟩) := by
  rw [List.get_of_eq hT ⟨i, hi'⟩]
  exact get_map1 _ l i hi _

/-- The blocked branch's conditional wait bump keeps every field the
contract tracks except `wait_time`. -/
theorem waitIf_proj (nid : String) (x : Task) :
    (if x.id = nid then waitBump x else x).id = x.id ∧
    (if x.id = nid then waitBump x else x).completed = x.completed ∧
    (if x.id = nid then waitBump x else x).admitted = x.admitted ∧
    (if x.id = nid then waitBump x else x).holds_resource = x.holds_resource ∧
    (if x.id = nid then waitBump x else x).needs_resource = x.needs_resource := by
  split <;> exact ⟨rfl, rfl, rfl, rfl, rfl⟩

/-- The run branch's conditional execution step keeps the id, the admission
flag and the resource fields of every task. -/
theorem execIf_proj (time : ℕ) (v : ℚ) (nid : String) (x : Task) :
    (if x.id = nid then execTask time v x else x).id = x.id ∧
    (if x.id = nid then execTask time v x else x).admitted = x.admitted ∧
    (if x.id = nid then execTask time v x else x).holds_resource = x.holds_resource ∧
    (if x.id = nid then execTask time v x else x).needs_resource = x.needs_resource := by
  split
  · exact ⟨(execTask_spec time v x).1, (execTask_spec time v x).2.1,
      (execTask_spec time v x).2.2.1, (execTask_spec time v x).2.2.2.1⟩
  · exact ⟨rfl, rfl, rfl, rfl⟩

/-- The completion contract of one tick, for a well-formed state  `s`:
(1) well-formedness is preserved; (2) the task list keeps its length;
for the task at every position: (3) its id is unchanged; (4) if it was
already completed, it stays completed with `completion_time`, `remaining`,
`wait_time` and `history` all frozen, its multiplicity on the ready list is
unchanged (it is never re-admitted), and it can never be the selected task;
(5) if it was not completed, it becomes completed this tick exactly when it
is the selected task, is not resource-blocked, and its remaining work after
the speed decrement is within `epsDone`; and when it does complete,
`completion_time` is set to `currentTime + 1` and the resource table of the
post-tick state holds no entry owned by it. -/
def C5Contract (cfg : Config) (s : SimState) : Prop :=
  WF (simTick cfg s).1 ∧
  (simTick cfg s).1.tasks.length = s.tasks.length ∧
  ∀ (i : ℕ) (hi : i < s.tasks.length) (hi' : i < (simTick cfg s).1.tasks.length),
    ((simTick cfg s).1.tasks.get ⟨i, hi'⟩).id = (s.tasks.get ⟨i, hi⟩).id ∧
    ((s.tasks.get ⟨i, hi⟩).completed = true →
      ((simTick cfg s).1.tasks.get ⟨i, hi'⟩).completed = true ∧
      ((simTick cfg s).1.tasks.get ⟨i, hi'⟩).completion_time
          = (s.tasks.get ⟨i, hi⟩).completion_time ∧
      ((simTick cfg s).1.tasks.get ⟨i, hi'⟩).remaining
          = (s.tasks.get ⟨i, hi⟩).remaining ∧
      ((simTick cfg s).1.tasks.get ⟨i, hi'⟩).wait_time
          = (s.tasks.get ⟨i, hi⟩).wait_time ∧
      ((simTick cfg s).1.tasks.get ⟨i, hi'⟩).history
          = (s.tasks.get ⟨i, hi⟩).history ∧
      (simTick cfg s).1.ready.count (s.tasks.get ⟨i, hi⟩).id
          = s.ready.count (s.tasks.get ⟨i, hi⟩).id ∧
      ∀ n, selectedOf cfg (arbPhase (admitPhase s)) = some n →
        n.id ≠ (s.tasks.get ⟨i, hi⟩).id) ∧
    ((s.tasks.get ⟨i, hi⟩).completed = false →
      (((simTick cfg s).1.tasks.get ⟨i, hi'⟩).completed = true ↔
        (∃ n, selectedOf cfg (arbPhase (admitPhase s)) = some n ∧
          n.id = (s.tasks.get ⟨i, hi⟩).id ∧
          blockedOn s.resources n = false ∧
          n.remaining - (tickCpu cfg (arbPhase (admitPhase s))).speed ≤ epsDone)) ∧
      (((simTick cfg s).1.tasks.get ⟨i, hi'⟩).completed = true →
        ((simTick cfg s).1.tasks.get ⟨i, hi'⟩).completion_time = some (s.time + 1) ∧
        ∀ p ∈ (simTick cfg s).1.resources, p.2 ≠ (s.tasks.get ⟨i, hi⟩).id))

/-- Claim C5: every task transitions to completed exactly once — at the
first tick on which its remaining work, after the speed decrement, is
within `epsDone = 0.0001` while it is the selected, non-blocked task; at
that moment `completion_time` is set to `currentTime + 1` and every
resource-table entry owned by it is removed; a completed task keeps all its
fields, is never re-admitted to the ready list and is never selected
again.  Stated as a per-tick contract (with well-formedness preserved, so
the contract composes over a whole run). -/
theorem c5_completion_contract (cfg : Config) (s : SimState) (hwf : WF s) :
    C5Contract cfg s := by
  obtain ⟨hw1, hw2, hw3, hw4⟩ := hwf
  obtain ⟨B, hB⟩ := simTick_pre_shape s
  have htk : (simTick cfg s).1.tasks =
      ((midPhase cfg (arbPhase (admitPhase s))).tasks).map
        (sweepAdj (arbPhase (admitPhase s)).ready
          (midPhase cfg (arbPhase (admitPhase s))).running) := rfl
  have hres3 : (simTick cfg s).1.resources =
      (midPhase cfg (arbPhase (admitPhase s))).resources := rfl
  unfold C5Contract
  cases hsel : selectedOf cfg (arbPhase (admitPhase s)) with
  | none =>
    obtain ⟨hmt, hmr, hmru⟩ := midPhase_none_frame cfg (arbPhase (admitPhase s)) hsel
    have hT : (simTick cfg s).1.tasks = s.tasks.map (fun t =>
        sweepAdj (arbPhase (admitPhase s)).ready (arbPhase (admitPhase s)).running
          (preAdj s.time B t)) := by
      rw [htk, hmt, hmru, hB]
      exact List.map_map _ _ _
    have hfro : ∀ t ∈ s.tasks, t.completed = true →
        sweepAdj (arbPhase (admitPhase s)).ready (arbPhase (admitPhase s)).running
          (preAdj s.time B t) = preAdj s.time B t := by
      intro t ht hc
      exact sweepAdj_of_completed _ _ (by rw [(preAdj_proj s.time B t).2.1]; exact hc)
    have hadm3 : ∀ t ∈ s.tasks,
        (sweepAdj (arbPhase (admitPhase s)).ready (arbPhase (admitPhase s)).running
          (preAdj s.time B t)).completed = true →
        (sweepAdj (arbPhase (admitPhase s)).ready (arbPhase (admitPhase s)).running
          (preAdj s.time B t)).admitted = true := by
      intro t ht hcc
      rw [(sweepAdj_proj _ _ _).2.1, (preAdj_proj s.time B t).2.1] at hcc
      rw [(sweepAdj_proj _ _ _).2.2.2.2.1]
      exact preAdj_admitted_mono _ _ (hw3 t ht hcc)
    have hRes : ∀ p ∈ (simTick cfg s).1.resources,
        p ∈ s.resources ∨ ∃ u ∈ s.tasks, p.2 = u.id ∧
          (u.holds_resource = some p.1 ∨ u.needs_resource = some p.1) := by
      intro p hp
      left
      rw [hres3, hmr] at hp
      exact hp
    obtain ⟨hWF, hlen, hidx⟩ := c5_core cfg s hw1 hw2 hw3 hw4 B
      (sweepAdj (arbPhase (admitPhase s)).ready (arbPhase (admitPhase s)).running)
      hB hT (fun t => (sweepAdj_proj _ _ t).1)
      (fun t => (sweepAdj_proj _ _ t).2.2.2.2.1)
      (fun t => (sweepAdj_proj _ _ t).2.2.2.2.2.1)
      (fun t => (sweepAdj_proj _ _ t).2.2.2.2.2.2)
      hfro hadm3 hRes
    rw [hsel] at hidx
    refine ⟨hWF, hlen, fun i hi hi' => ⟨(hidx i hi hi').1, (hidx i hi hi').2, ?_⟩⟩
    intro hnc
    have hg := shape_get _ hT i hi hi'
    have hcf : ((simTick cfg s).1.tasks.get ⟨i, hi'⟩).completed = false := by
      rw [hg, (sweepAdj_proj _ _ _).2.1, (preAdj_proj s.time B _).2.1]
      exact hnc
    refine ⟨⟨fun hcc => absurd (hcf.symm.trans hcc) (by simp), ?_⟩,
      fun hcc => absurd (hcf.symm.trans hcc) (by simp)⟩
    rintro ⟨n, hn, -, -, -⟩
    exact Option.noConfusion hn
  | some n =>
    have hnid : ∀ t ∈ s.tasks, t.completed = true → t.id ≠ n.id := by
      intro t ht hc hEq
      obtain ⟨u, hu, hnu, hucomp, -, -⟩ := selected_decomp hB hsel
      have hut : u = t :=
        id_unique hw1 hu ht (by rw [hEq, hnu, (preAdj_proj s.time B u).1])
      rw [hut] at hucomp
      exact absurd (hc.symm.trans hucomp) (by simp)
    obtain ⟨u, hu, hnu, hucomp, hurem, huready⟩ := selected_decomp hB hsel
    have hnid_eq : n.id = u.id := by rw [hnu, (preAdj_proj s.time B u).1]
    have hnrem : n.remaining = u.remaining := by
      rw [hnu, (preAdj_proj s.time B u).2.2.1]
    have hnholds : n.holds_resource = u.holds_resource := by
      rw [hnu, (preAdj_proj s.time B u).2.2.2.2.2.2.1]
    have hnneeds : n.needs_resource = u.needs_resource := by
      rw [hnu, (preAdj_proj s.time B u).2.2.2.2.2.2.2.1]
    cases hbv : blockedOn s.resources n with
    | true =>
      obtain ⟨hmt, hmr, hmru⟩ :=
        midPhase_blocked_frame cfg (arbPhase (admitPhase s)) n hsel hbv
      have hT : (simTick cfg s).1.tasks = s.tasks.map (fun t =>
          sweepAdj (arbPhase (admitPhase s)).ready none
            (if (preAdj s.time B t).id = n.id then waitBump (preAdj s.time B t)
             else preAdj s.time B t)) := by
        rw [htk, hmt, hmru, hB]
        show ((s.tasks.map (preAdj s.time B)).map
            (fun x => if x.id = n.id then waitBump x else x)).map
            (sweepAdj (arbPhase (admitPhase s)).ready none) = _
        rw [map3_collapse]
      have hfro : ∀ t ∈ s.tasks, t.completed = true →
          sweepAdj (arbPhase (admitPhase s)).ready none
            (if (preAdj s.time B t).id = n.id then waitBump (preAdj s.time B t)
             else preAdj s.time B t) = (if (preAdj s.time B t).id = n.id
               then waitBump (preAdj s.time B t) else preAdj s.time B t) ∧
          (if (preAdj s.time B t).id = n.id then waitBump (preAdj s.time B t)
           else preAdj s.time B t) = preAdj s.time B t := by
        intro t ht hc
        have hne : ¬((preAdj s.time B t).id = n.id) := by
          rw [(preAdj_proj s.time B t).1]
          exact hnid t ht hc
        refine ⟨?_, if_neg hne⟩
        rw [if_neg hne]
        exact sweepAdj_of_completed _ _ (by rw [(preAdj_proj s.time B t).2.1]; exact hc)
      have hfro' : ∀ t ∈ s.tasks, t.completed = true →
          sweepAdj (arbPhase (admitPhase s)).ready none
            (if (preAdj s.time B t).id = n.id then waitBump (preAdj s.time B t)
             else preAdj s.time B t) = preAdj s.time B t := by
        intro t ht hc
        exact ((hfro t ht hc).1).trans (hfro t ht hc).2
      have hadm3 : ∀ t ∈ s.tasks,
          (sweepAdj (arbPhase (admitPhase s)).ready none
            (if (preAdj s.time B t).id = n.id then waitBump (preAdj s.time B t)
             else preAdj s.time B t)).completed = true →
          (sweepAdj (arbPhase (admitPhase s)).ready none
            (if (preAdj s.time B t).id = n.id then waitBump (preAdj s.time B t)
             else preAdj s.time B t)).admitted = true := by
      -- indentation fix below
        intro t ht hcc
        rw [(sweepAdj_proj _ _ _).2.1, (waitIf_proj n.id _).2.1,
          (preAdj_proj s.time B t).2.1] at hcc
        rw [(sweepAdj_proj _ _ _).2.2.2.2.1, (waitIf_proj n.id _).2.2.1]
        exact preAdj_admitted_mono _ _ (hw3 t ht hcc)
      have hRes : ∀ p ∈ (simTick cfg s).1.resources,
          p ∈ s.resources ∨ ∃ u ∈ s.tasks, p.2 = u.id ∧
            (u.holds_resource = some p.1 ∨ u.needs_resource = some p.1) := by
        intro p hp
        left
        rw [hres3, hmr] at hp
        exact hp
      obtain ⟨hWF, hlen, hidx⟩ := c5_core cfg s hw1 hw2 hw3 hw4 B
        (fun x => sweepAdj (arbPhase (admitPhase s)).ready none
          (if x.id = n.id then waitBump x else x))
        hB hT
        (fun x => by rw [(sweepAdj_proj _ _ _).1, (waitIf_proj n.id x).1])
        (fun x => by rw [(sweepAdj_proj _ _ _).2.2.2.2.1, (waitIf_proj n.id x).2.2.1])
        (fun x => by rw [(sweepAdj_proj _ _ _).2.2.2.2.2.1, (waitIf_proj n.id x).2.2.2.1])
        (fun x => by rw [(sweepAdj_proj _ _ _).2.2.2.2.2.2, (waitIf_proj n.id x).2.2.2.2])
        hfro' hadm3 hRes
      rw [hsel] at hidx
      refine ⟨hWF, hlen, fun i hi hi' => ⟨(hidx i hi hi').1, (hidx i hi hi').2, ?_⟩⟩
      intro hnc
      have hg := shape_get _ hT i hi hi'
      have hcf : ((simTick cfg s).1.tasks.get ⟨i, hi'⟩).completed = false := by
        rw [hg, (sweepAdj_proj _ _ _).2.1, (waitIf_proj n.id _).2.1,
          (preAdj_proj s.time B _).2.1]
        exact hnc
      refine ⟨⟨fun hcc => absurd (hcf.symm.trans hcc) (by simp), ?_⟩,
        fun hcc => absurd (hcf.symm.trans hcc) (by simp)⟩
      rintro ⟨n', hn', -, hnb', -⟩
      have hnn : n = n' := Option.some.inj hn'
      rw [← hnn] at hnb'
      exact absurd (hnb'.symm.trans hbv) (by simp)
    | false =>
      obtain ⟨hmt, hmr, hmru⟩ :=
        midPhase_run_frame cfg (arbPhase (admitPhase s)) n hsel hbv
      have hT : (simTick cfg s).1.tasks = s.tasks.map (fun t =>
          sweepAdj (arbPhase (admitPhase s)).ready (some n.id)
            (if (preAdj s.time B t).id = n.id
             then execTask (arbPhase (admitPhase s)).time
               (tickCpu cfg (arbPhase (admitPhase s))).speed (preAdj s.time B t)
             else preAdj s.time B t)) := by
        rw [htk, hmt, hmru, hB]
        show ((s.tasks.map (preAdj s.time B)).map
            (fun x => if x.id = n.id
              then execTask (arbPhase (admitPhase s)).time
                (tickCpu cfg (arbPhase (admitPhase s))).speed x else x)).map
            (sweepAdj (arbPhase (admitPhase s)).ready (some n.id)) = _
        rw [map3_collapse]
      have hfro : ∀ t ∈ s.tasks, t.completed = true →
          sweepAdj (arbPhase (admitPhase s)).ready (some n.id)
            (if (preAdj s.time B t).id = n.id
             then execTask (arbPhase (admitPhase s)).time
               (tickCpu cfg (arbPhase (admitPhase s))).speed (preAdj s.time B t)
             else preAdj s.time B t) = preAdj s.time B t := by
        intro t ht hc
        have hne : ¬((preAdj s.time B t).id = n.id) := by
          rw [(preAdj_proj s.time B t).1]
          exact hnid t ht hc
        rw [if_neg hne]
        exact sweepAdj_of_completed _ _ (by rw [(preAdj_proj s.time B t).2.1]; exact hc)
      have hadm3 : ∀ t ∈ s.tasks,
          (sweepAdj (arbPhase (admitPhase s)).ready (some n.id)
            (if (preAdj s.time B t).id = n.id
             then execTask (arbPhase (admitPhase s)).time
               (tickCpu cfg (arbPhase (admitPhase s))).speed (preAdj s.time B t)
             else preAdj s.time B t)).completed = true →
          (sweepAdj (arbPhase (admitPhase s)).ready (some n.id)
            (if (preAdj s.time B t).id = n.id
             then execTask (arbPhase (admitPhase s)).time
               (tickCpu cfg (arbPhase (admitPhase s))).speed (preAdj s.time B t)
             else preAdj s.time B t)).admitted = true := by
        intro t ht hcc
        rw [(sweepAdj_proj _ _ _).2.2.2.2.1, (execIf_proj _ _ _ _).2.1]
        by_cases hidn : (preAdj s.time B t).id = n.id
        · have huid : u.id = t.id := by
            rw [← (preAdj_proj s.time B t).1, hidn, hnid_eq]
          have hut : u = t := id_unique hw1 hu ht huid
          have hadm := preAdj_ready_admitted (B := B) hw1 hw2 hu huready
          rw [← hut]
          exact hadm
        · rw [(sweepAdj_proj _ _ _).2.1, if_neg hidn,
            (preAdj_proj s.time B t).2.1] at hcc
          exact preAdj_admitted_mono _ _ (hw3 t ht hcc)
      have hRes : ∀ p ∈ (simTick cfg s).1.resources,
          p ∈ s.resources ∨ ∃ w ∈ s.tasks, p.2 = w.id ∧
            (w.holds_resource = some p.1 ∨ w.needs_resource = some p.1) := by
        intro p hp
        rw [hres3, hmr] at hp
        rcases mem_runResources hp with hpo | ⟨hpi, hne⟩
        · left
          exact hpo
        · right
          refine ⟨u, hu, by rw [hpi, hnid_eq], ?_⟩
          rcases hne with h | h
          · right
            rw [← hnneeds]
            exact h
          · left
            rw [← hnholds]
            exact h
      obtain ⟨hWF, hlen, hidx⟩ := c5_core cfg s hw1 hw2 hw3 hw4 B
        (fun x => sweepAdj (arbPhase (admitPhase s)).ready (some n.id)
          (if x.id = n.id
           then execTask (arbPhase (admitPhase s)).time
             (tickCpu cfg (arbPhase (admitPhase s))).speed x else x))
        hB hT
        (fun x => by rw [(sweepAdj_proj _ _ _).1, (execIf_proj _ _ _ x).1])
        (fun x => by rw [(sweepAdj_proj _ _ _).2.2.2.2.1, (execIf_proj _ _ _ x).2.1])
        (fun x => by rw [(sweepAdj_proj _ _ _).2.2.2.2.2.1, (execIf_proj _ _ _ x).2.2.1])
        (fun x => by rw [(sweepAdj_proj _ _ _).2.2.2.2.2.2, (execIf_proj _ _ _ x).2.2.2])
        hfro hadm3 hRes
      rw [hsel] at hidx
      refine ⟨hWF, hlen, fun i hi hi' => ⟨(hidx i hi hi').1, (hidx i hi hi').2, ?_⟩⟩
      intro hnc
      have hg := shape_get _ hT i hi hi'
      by_cases hidn : (s.tasks.get ⟨i, hi⟩).id = n.id
      · have huid : u.id = (s.tasks.get ⟨i, hi⟩).id := by
          rw [← hnid_eq, hidn]
        have hut : u = s.tasks.get ⟨i, hi⟩ :=
          id_unique hw1 hu (List.get_mem s.tasks i hi) huid
        have hpe : (preAdj s.time B (s.tasks.get ⟨i, hi⟩)).id = n.id := by
          rw [(preAdj_proj s.time B _).1, hidn]
        have hcomp' : ((simTick cfg s).1.tasks.get ⟨i, hi'⟩).completed
            = decide ((s.tasks.get ⟨i, hi⟩).remaining
                - (tickCpu cfg (arbPhase (admitPhase s))).speed ≤ epsDone) := by
          rw [hg, (sweepAdj_proj _ _ _).2.1, if_pos hpe,
            (execTask_spec _ _ _).2.2.2.2.2.1,
            (preAdj_proj s.time B _).2.2.1, (preAdj_proj s.time B _).2.1, hnc,
            Bool.or_false]
        have hct' : ((simTick cfg s).1.tasks.get ⟨i, hi'⟩).completion_time
            = (if (s.tasks.get ⟨i, hi⟩).remaining
                  - (tickCpu cfg (arbPhase (admitPhase s))).speed ≤ epsDone
               then some ((arbPhase (admitPhase s)).time + 1)
               else (s.tasks.get ⟨i, hi⟩).completion_time) := by
          rw [hg, (sweepAdj_proj _ _ _).2.2.2.1, if_pos hpe,
            (execTask_spec _ _ _).2.2.2.2.2.2,
            (preAdj_proj s.time B _).2.2.1, (preAdj_proj s.time B _).2.2.2.1]
        constructor
        · constructor
          · intro hcc
            rw [hcomp'] at hcc
            have heps := of_decide_eq_true hcc
            refine ⟨n, rfl, by rw [hnid_eq, huid], hbv, ?_⟩
            rw [hnrem, hut]
            exact heps
          · rintro ⟨n', hn', -, -, heps'⟩
            have hnn : n = n' := Option.some.inj hn'
            rw [hcomp']
            apply decide_eq_true
            rw [← hut, ← hnrem, hnn]
            exact heps'
        · intro hcc
          rw [hcomp'] at hcc
          have heps := of_decide_eq_true hcc
          constructor
          · rw [hct', if_pos heps]
            rfl
          · intro p hp
            rw [hres3, hmr] at hp
            have hcn : n.remaining - (tickCpu cfg (arbPhase (admitPhase s))).speed
                ≤ epsDone := by
              rw [hnrem, hut]
              exact heps
            have hresown : ∀ p' ∈ (arbPhase (admitPhase s)).resources, p'.2 = n.id →
                (n.holds_resource = some p'.1 ∨ n.needs_resource = some p'.1) := by
              intro p' hp' hp'n
              have hp'' : p' ∈ s.resources := hp'
              have huidp : u.id = p'.2 := by rw [hp'n, hnid_eq]
              rcases hw4 p' hp'' u hu huidp with h | h
              · left
                rw [hnholds]
                exact h
              · right
                rw [hnneeds]
                exact h
            have hclr := runResources_clears_self hcn hresown p hp
            rw [hnid_eq, huid] at hclr
            exact hclr
      · have hpe : ¬((preAdj s.time B (s.tasks.get ⟨i, hi⟩)).id = n.id) := by
          rw [(preAdj_proj s.time B _).1]
          exact hidn
        have hcf : ((simTick cfg s).1.tasks.get ⟨i, hi'⟩).completed = false := by
          rw [hg, (sweepAdj_proj _ _ _).2.1, if_neg hpe, (preAdj_proj s.time B _).2.1]
          exact hnc
        refine ⟨⟨fun hcc => absurd (hcf.symm.trans hcc) (by simp), ?_⟩,
          fun hcc => absurd (hcf.symm.trans hcc) (by simp)⟩
        rintro ⟨n', hn', hid', -, -⟩
        have hnn : n = n' := Option.some.inj hn'
        rw [← hnn] at hid'
        exact absurd hid'.symm hidn

/-- Witness for C5: the initial state of a one-task run is well-formed, so
the per-tick completion contract applies to it. -/
theorem c5_completion_contract_witness :
    WF (initState [mkTask "T1" 0 1 10 ⊤ false none none]) ∧
    C5Contract ⟨"edf", 20⟩ (initState [mkTask "T1" 0 1 10 ⊤ false none none]) :=
  ⟨by unfold WF; with_unfolding_all decide,
   c5_completion_contract ⟨"edf", 20⟩ (initState [mkTask "T1" 0 1 10 ⊤ false none none])
     (by unfold WF; with_unfolding_all decide)⟩

/-! ## Claim C10: tasks with zero execution are starved forever -/

/-- A task without remaining work is never a selection candidate: the
candidate filter demands `remaining > 0`. -/
theorem not_candidate_of_nonpos (l : List Task) (t : Task) (h : t.remaining ≤ 0) :
    t ∉ candidatesOf l := by
  intro hmem
  have h2 := (List.mem_filter.mp hmem).2
  simp only [Bool.and_eq_true, decide_eq_true_eq] at h2
  exact absurd h2.1 (not_lt.mpr h)

/-- The wait-time sweep keeps `history`. -/
theorem sweepAdj_history (r : List String) (run : Option String) (t : Task) :
    (sweepAdj r run t).history = t.history := by
  unfold sweepAdj waitBump
  split <;> rfl

/-- One never-completed task defeats the early-termination test: if it is
admitted it survives the first filter, otherwise the second. -/
theorem breakCond_false_of_noncompleted {ts : List Task} {t : Task}
    (ht : t ∈ ts) (hc : t.completed = false) : breakCond ts = false := by
  unfold breakCond
  by_cases ha : t.admitted = true
  · cases hq : (ts.filter (fun t => !t.completed && t.admitted)).isEmpty with
    | false => rfl
    | true =>
      exfalso
      rw [List.isEmpty_iff] at hq
      have hmem : t ∈ ts.filter (fun t => !t.completed && t.admitted) :=
        List.mem_filter.mpr ⟨ht, by show (!t.completed && t.admitted) = true; rw [hc, ha]; rfl⟩
      rw [hq] at hmem
      exact absurd hmem (List.not_mem_nil t)
  · have ha' : t.admitted = false := by
      cases hav : t.admitted
      · rfl
      · exact absurd hav ha
    cases hq : (ts.filter (fun t => !t.admitted)).isEmpty with
    | false => exact Bool.and_false _
    | true =>
      exfalso
      rw [List.isEmpty_iff] at hq
      have hmem : t ∈ ts.filter (fun t => !t.admitted) :=
        List.mem_filter.mpr ⟨ht, by show (!t.admitted) = true; rw [ha']; rfl⟩
      rw [hq] at hmem
      exact absurd hmem (List.not_mem_nil t)

/-- When the tick does not take the early break, the loop advances the clock
and recurses. -/
theorem simLoop_succ_of_not_broke (cfg : Config) (m : ℕ) (s : SimState)
    (hbrk : (simTick cfg s).2 = false) :
    simLoop cfg (m + 1) s = simLoop cfg m (advanceTick (simTick cfg s).1) := by
  unfold simLoop
  cases hts : simTick cfg s with
  | mk s1 br =>
    rw [hts] at hbrk
    have hbr : br = false := hbrk
    subst hbr
    cases m with
    | zero => rfl
    | succ k => rfl

/-- A task without remaining work can never be the selected task. -/
theorem not_selected_of_nonpos (cfg : Config) (s : SimState)
    (hw1 : (s.tasks.map Task.id).Nodup) {t : Task} (ht : t ∈ s.tasks)
    (hrem : t.remaining ≤ 0) :
    ∀ n, selectedOf cfg (arbPhase (admitPhase s)) = some n → n.id ≠ t.id := by
  intro n hsel hEq
  obtain ⟨B, hB⟩ := simTick_pre_shape s
  obtain ⟨u, hu, hnu, -, hurem, -⟩ := selected_decomp hB hsel
  have huid : u.id = t.id := by
    rw [← (preAdj_proj s.time B u).1, ← hnu, hEq]
  have hut : u = t := id_unique hw1 hu ht huid
  rw [hut] at hurem
  exact absurd hurem (not_lt.mpr hrem)

/-- A task the selector cannot pick is untouched by a tick except for its
admission, boost and wait-time bookkeeping: `remaining`, `completed`,
`completion_time` and `history` are all preserved, as are the ids of the
whole task list. -/
theorem untouched_tick (cfg : Config) (s : SimState) (i : ℕ) (hi : i < s.tasks.length)
    (hnosel : ∀ n, selectedOf cfg (arbPhase (admitPhase s)) = some n →
      n.id ≠ (s.tasks.get ⟨i, hi⟩).id) :
    (simTick cfg s).1.tasks.map Task.id = s.tasks.map Task.id ∧
    (simTick cfg s).1.tasks.length = s.tasks.length ∧
    ∀ hi' : i < (simTick cfg s).1.tasks.length,
      ((simTick cfg s).1.tasks.get ⟨i, hi'⟩).remaining = (s.tasks.get ⟨i, hi⟩).remaining ∧
      ((simTick cfg s).1.tasks.get ⟨i, hi'⟩).completed = (s.tasks.get ⟨i, hi⟩).completed ∧
      ((simTick cfg s).1.tasks.get ⟨i, hi'⟩).completion_time
          = (s.tasks.get ⟨i, hi⟩).completion_time ∧
      ((simTick cfg s).1.tasks.get ⟨i, hi'⟩).history = (s.tasks.get ⟨i, hi⟩).history := by
  obtain ⟨B, hB⟩ := simTick_pre_shape s
  have htk : (simTick cfg s).1.tasks =
      ((midPhase cfg (arbPhase (admitPhase s))).tasks).map
        (sweepAdj (arbPhase (admitPhase s)).ready
          (midPhase cfg (arbPhase (admitPhase s))).running) := rfl
  cases hsel : selectedOf cfg (arbPhase (admitPhase s)) with
  | none =>
    obtain ⟨hmt, hmr, hmru⟩ := midPhase_none_frame cfg (arbPhase (admitPhase s)) hsel
    have hT : (simTick cfg s).1.tasks = s.tasks.map (fun t =>
        sweepAdj (arbPhase (admitPhase s)).ready (arbPhase (admitPhase s)).running
          (preAdj s.time B t)) := by
      rw [htk, hmt, hmru, hB]
      exact List.map_map _ _ _
    refine ⟨?_, by rw [hT]; simp, ?_⟩
    · rw [hT, List.map_map]
      apply List.map_congr_left
      intro t _
      show (sweepAdj _ _ (preAdj s.time B t)).id = t.id
      rw [(sweepAdj_proj _ _ _).1, (preAdj_proj s.time B t).1]
    · intro hi'
      have hg := shape_get _ hT i hi hi'
      refine ⟨?_, ?_, ?_, ?_⟩
      · rw [hg, (sweepAdj_proj _ _ _).2.2.1, (preAdj_proj s.time B _).2.2.1]
      · rw [hg, (sweepAdj_proj _ _ _).2.1, (preAdj_proj s.time B _).2.1]
      · rw [hg, (sweepAdj_proj _ _ _).2.2.2.1, (preAdj_proj s.time B _).2.2.2.1]
      · rw [hg, sweepAdj_history, (preAdj_proj s.time B _).2.2.2.2.2.1]
  | some n =>
    have hne : ¬((preAdj s.time B (s.tasks.get ⟨i, hi⟩)).id = n.id) := by
      rw [(preAdj_proj s.time B _).1]
      exact fun h => hnosel n hsel h.symm
    cases hbv : blockedOn s.resources n with
    | true =>
      obtain ⟨hmt, hmr, hmru⟩ :=
        midPhase_blocked_frame cfg (arbPhase (admitPhase s)) n hsel hbv
      have hT : (simTick cfg s).1.tasks = s.tasks.map (fun t =>
          sweepAdj (arbPhase (admitPhase s)).ready none
            (if (preAdj s.time B t).id = n.id then waitBump (preAdj s.time B t)
             else preAdj s.time B t)) := by
        rw [htk, hmt, hmru, hB]
        show ((s.tasks.map (preAdj s.time B)).map
            (fun x => if x.id = n.id then waitBump x else x)).map
            (sweepAdj (arbPhase (admitPhase s)).ready none) = _
        rw [map3_collapse]
      refine ⟨?_, by rw [hT]; simp, ?_⟩
      · rw [hT, List.map_map]
        apply List.map_congr_left
        intro t _
        show (sweepAdj _ _ (if (preAdj s.time B t).id = n.id
            then waitBump (preAdj s.time B t) else preAdj s.time B t)).id = t.id
        rw [(sweepAdj_proj _ _ _).1, (waitIf_proj n.id _).1, (preAdj_proj s.time B t).1]
      · intro hi'
        have hg := shape_get _ hT i hi hi'
        rw [if_neg hne] at hg
        refine ⟨?_, ?_, ?_, ?_⟩
        · rw [hg, (sweepAdj_proj _ _ _).2.2.1, (preAdj_proj s.time B _).2.2.1]
        · rw [hg, (sweepAdj_proj _ _ _).2.1, (preAdj_proj s.time B _).2.1]
        · rw [hg, (sweepAdj_proj _ _ _).2.2.2.1, (preAdj_proj s.time B _).2.2.2.1]
        · rw [hg, sweepAdj_history, (preAdj_proj s.time B _).2.2.2.2.2.1]
    | false =>
      obtain ⟨hmt, hmr, hmru⟩ :=
        midPhase_run_frame cfg (arbPhase (admitPhase s)) n hsel hbv
      have hT : (simTick cfg s).1.tasks = s.tasks.map (fun t =>
          sweepAdj (arbPhase (admitPhase s)).ready (some n.id)
            (if (preAdj s.time B t).id = n.id
             then execTask (arbPhase (admitPhase s)).time
               (tickCpu cfg (arbPhase (admitPhase s))).speed (preAdj s.time B t)
             else preAdj s.time B t)) := by
        rw [htk, hmt, hmru, hB]
        show ((s.tasks.map (preAdj s.time B)).map
            (fun x => if x.id = n.id
              then execTask (arbPhase (admitPhase s)).time
                (tickCpu cfg (arbPhase (admitPhase s))).speed x else x)).map
            (sweepAdj (arbPhase (admitPhase s)).ready (some n.id)) = _
        rw [map3_collapse]
      refine ⟨?_, by rw [hT]; simp, ?_⟩
      · rw [hT, List.map_map]
        apply List.map_congr_left
        intro t _
        show (sweepAdj _ _ (if (preAdj s.time B t).id = n.id
            then execTask (arbPhase (admitPhase s)).time
              (tickCpu cfg (arbPhase (admitPhase s))).speed (preAdj s.time B t)
            else preAdj s.time B t)).id = t.id
        rw [(sweepAdj_proj _ _ _).1, (execIf_proj _ _ _ _).1, (preAdj_proj s.time B t).1]
      · intro hi'
        have hg := shape_get _ hT i hi hi'
        rw [if_neg hne] at hg
        refine ⟨?_, ?_, ?_, ?_⟩
        · rw [hg, (sweepAdj_proj _ _ _).2.2.1, (preAdj_proj s.time B _).2.2.1]
        · rw [hg, (sweepAdj_proj _ _ _).2.1, (preAdj_proj s.time B _).2.1]
        · rw [hg, (sweepAdj_proj _ _ _).2.2.2.1, (preAdj_proj s.time B _).2.2.2.1]
        · rw [hg, sweepAdj_history, (preAdj_proj s.time B _).2.2.2.2.2.1]

/-- Over any number of iterations, a task without remaining work keeps its
`remaining`, stays non-completed, keeps its `completion_time` and `history`,
and — because it always defeats the early-termination test — the loop never
breaks, advancing the clock once per iteration. -/
theorem zero_exec_loop (cfg : Config) :
    ∀ (fuel : ℕ) (s : SimState) (i : ℕ) (hi : i < s.tasks.length),
      (s.tasks.map Task.id).Nodup →
      (s.tasks.get ⟨i, hi⟩).remaining ≤ 0 →
      (s.tasks.get ⟨i, hi⟩).completed = false →
      ∃ hi' : i < (simLoop cfg fuel s).tasks.length,
        ((simLoop cfg fuel s).tasks.get ⟨i, hi'⟩).remaining
          = (s.tasks.get ⟨i, hi⟩).remaining ∧
        ((simLoop cfg fuel s).tasks.get ⟨i, hi'⟩).completed = false ∧
        ((simLoop cfg fuel s).tasks.get ⟨i, hi'⟩).completion_time
          = (s.tasks.get ⟨i, hi⟩).completion_time ∧
        ((simLoop cfg fuel s).tasks.get ⟨i, hi'⟩).history
          = (s.tasks.get ⟨i, hi⟩).history ∧
        (simLoop cfg fuel s).time = s.time + fuel := by
  intro fuel
  induction fuel with
  | zero =>
    intro s i hi _ _ hnc
    exact ⟨hi, rfl, hnc, rfl, rfl, rfl⟩
  | succ m ih =>
    intro s i hi hw1 hrem hnc
    have htmem : s.tasks.get ⟨i, hi⟩ ∈ s.tasks := List.get_mem s.tasks i hi
    have hnosel := not_selected_of_nonpos cfg s hw1 htmem hrem
    obtain ⟨hids, hlen, hfields⟩ := untouched_tick cfg s i hi hnosel
    have hi1 : i < (simTick cfg s).1.tasks.length := by
      rw [hlen]
      exact hi
    obtain ⟨hrem1, hcomp1, hct1, hh1⟩ := hfields hi1
    have hbrk : (simTick cfg s).2 = false := by
      have hm1 : (simTick cfg s).1.tasks.get ⟨i, hi1⟩ ∈ (simTick cfg s).1.tasks :=
        List.get_mem _ _ _
      have hb2 : (simTick cfg s).2 = breakCond (simTick cfg s).1.tasks := rfl
      rw [hb2]
      exact breakCond_false_of_noncompleted hm1 (by rw [hcomp1]; exact hnc)
    rw [simLoop_succ_of_not_broke cfg m s hbrk]
    have hi2 : i < (advanceTick (simTick cfg s).1).tasks.length := hi1
    have hw1' : ((advanceTick (simTick cfg s).1).tasks.map Task.id).Nodup := by
      show ((simTick cfg s).1.tasks.map Task.id).Nodup
      rw [hids]
      exact hw1
    have hrem' : ((advanceTick (simTick cfg s).1).tasks.get ⟨i, hi2⟩).remaining ≤ 0 := by
      show ((simTick cfg s).1.tasks.get ⟨i, hi1⟩).remaining ≤ 0
      rw [hrem1]
      exact hrem
    have hnc' : ((advanceTick (simTick cfg s).1).tasks.get ⟨i, hi2⟩).completed = false := by
      show ((simTick cfg s).1.tasks.get ⟨i, hi1⟩).completed = false
      rw [hcomp1]
      exact hnc
    obtain ⟨hif, hfr, hfc, hfct, hfh, hft⟩ :=
      ih (advanceTick (simTick cfg s).1) i hi2 hw1' hrem' hnc'
    refine ⟨hif, ?_, hfc, ?_, ?_, ?_⟩
    · rw [hfr]
      show ((simTick cfg s).1.tasks.get ⟨i, hi1⟩).remaining = _
      exact hrem1
    · rw [hfct]
      show ((simTick cfg s).1.tasks.get ⟨i, hi1⟩).completion_time = _
      exact hct1
    · rw [hfh]
      show ((simTick cfg s).1.tasks.get ⟨i, hi1⟩).history = _
      exact hh1
    · rw [hft]
      have ht1 : (advanceTick (simTick cfg s).1).time = s.time + 1 := by
        show (simTick cfg s).1.time + 1 = s.time + 1
        rw [(simTick_time_timeline cfg s).1]
      rw [ht1]
      omega

/-- Claim C10: a task whose (normalized) execution is zero — so its initial
`remaining` is zero — is never a selection candidate (the candidate filter
demands `remaining > 0`), never runs (its history stays empty — equal to
its initial history), never becomes completed (`completion_time` also stays
at its initial value), lands in the deadline-miss set of the results, and
its presence makes the early-termination condition false on every tick, so
the loop runs through the full horizon: the final clock is `totalTime + 1`
and one timeline snapshot exists per tick `0 .. totalTime`. -/
theorem c10_zero_exec_starved (tasks : List Task) (sched : String) (totalTime : ℕ)
    (thr : ℚ) (i : ℕ) (hi : i < tasks.length)
    (hw1 : (tasks.map Task.id).Nodup)
    (hrem : (tasks.get ⟨i, hi⟩).remaining ≤ 0)
    (hnc : (tasks.get ⟨i, hi⟩).completed = false) :
    (∀ (l : List Task) (t : Task), t.remaining ≤ 0 → t ∉ candidatesOf l) ∧
    ∃ hi' : i < (runSim tasks sched totalTime thr).tasks.length,
      ((runSim tasks sched totalTime thr).tasks.get ⟨i, hi'⟩).remaining
        = (tasks.get ⟨i, hi⟩).remaining ∧
      ((runSim tasks sched totalTime thr).tasks.get ⟨i, hi'⟩).completed = false ∧
      ((runSim tasks sched totalTime thr).tasks.get ⟨i, hi'⟩).completion_time
        = (tasks.get ⟨i, hi⟩).completion_time ∧
      ((runSim tasks sched totalTime thr).tasks.get ⟨i, hi'⟩).history
        = (tasks.get ⟨i, hi⟩).history ∧
      (runSim tasks sched totalTime thr).tasks.get ⟨i, hi'⟩
        ∈ missedOf (runSim tasks sched totalTime thr).tasks ∧
      (simLoop ⟨sched, thr⟩ (totalTime + 1) (initState tasks)).time = totalTime + 1 ∧
      (runSim tasks sched totalTime thr).timeline.length = totalTime + 1 := by
  refine ⟨fun l t h => not_candidate_of_nonpos l t h, ?_⟩
  have hi0 : i < (initState tasks).tasks.length := hi
  obtain ⟨hif, hfr, hfc, hfct, hfh, hft⟩ :=
    zero_exec_loop ⟨sched, thr⟩ (totalTime + 1) (initState tasks) i hi0 hw1 hrem hnc
  have htime : (simLoop ⟨sched, thr⟩ (totalTime + 1) (initState tasks)).time
      = totalTime + 1 := by
    rw [hft]
    show 0 + (totalTime + 1) = totalTime + 1
    exact Nat.zero_add _
  have hifR : i < (runSim tasks sched totalTime thr).tasks.length := hif
  refine ⟨hifR, hfr, hfc, hfct, hfh, ?_, htime, ?_⟩
  · apply List.mem_filter.mpr
    refine ⟨List.get_mem _ _ _, ?_⟩
    show (!((runSim tasks sched totalTime thr).tasks.get ⟨i, hifR⟩).completed ||
      (match ((runSim tasks sched totalTime thr).tasks.get ⟨i, hifR⟩).completion_time with
       | some c => decide (((runSim tasks sched totalTime thr).tasks.get
           ⟨i, hifR⟩).abs_deadline < (c : ℚ))
       | none => false)) = true
    have hfc' : ((runSim tasks sched totalTime thr).tasks.get ⟨i, hifR⟩).completed
        = false := hfc
    rw [hfc']
    rfl
  · have hTL := (simLoop_timeline_times ⟨sched, thr⟩ (totalTime + 1) (initState tasks)).1
    have hx : (runSim tasks sched totalTime thr).timeline.length =
        ((simLoop ⟨sched, thr⟩ (totalTime + 1) (initState tasks)).timeline.map
          (fun e => e.time)).length := (List.length_map _ _).symm
    rw [hx, hTL]
    show (([] : List ℕ) ++ List.range' 0
      ((simLoop ⟨sched, thr⟩ (totalTime + 1) (initState tasks)).time - 0)).length
      = totalTime + 1
    rw [List.nil_append, List.length_range', htime]
    omega

/-- Witness for C10: a single task with execution 0 over a 2-tick horizon. -/
theorem c10_zero_exec_starved_witness :
    ([mkTask "Z" 0 0 5 ⊤ false none none].map Task.id).Nodup ∧
    (([mkTask "Z" 0 0 5 ⊤ false none none].get ⟨0, by decide⟩).remaining ≤ 0 ∧
     ([mkTask "Z" 0 0 5 ⊤ false none none].get ⟨0, by decide⟩).completed = false) ∧
    ((∀ (l : List Task) (t : Task), t.remaining ≤ 0 → t ∉ candidatesOf l) ∧
     ∃ hi' : 0 < (runSim [mkTask "Z" 0 0 5 ⊤ false none none] "edf" 2 20).tasks.length,
      ((runSim [mkTask "Z" 0 0 5 ⊤ false none none] "edf" 2 20).tasks.get
          ⟨0, hi'⟩).remaining
        = ([mkTask "Z" 0 0 5 ⊤ false none none].get ⟨0, by decide⟩).remaining ∧
      ((runSim [mkTask "Z" 0 0 5 ⊤ false none none] "edf" 2 20).tasks.get
          ⟨0, hi'⟩).completed = false ∧
      ((runSim [mkTask "Z" 0 0 5 ⊤ false none none] "edf" 2 20).tasks.get
          ⟨0, hi'⟩).completion_time
        = ([mkTask "Z" 0 0 5 ⊤ false none none].get ⟨0, by decide⟩).completion_time ∧
      ((runSim [mkTask "Z" 0 0 5 ⊤ false none none] "edf" 2 20).tasks.get
          ⟨0, hi'⟩).history
        = ([mkTask "Z" 0 0 5 ⊤ false none none].get ⟨0, by decide⟩).history ∧
      (runSim [mkTask "Z" 0 0 5 ⊤ false none none] "edf" 2 20).tasks.get ⟨0, hi'⟩
        ∈ missedOf (runSim [mkTask "Z" 0 0 5 ⊤ false none none] "edf" 2 20).tasks ∧
      (simLoop ⟨"edf", 20⟩ (2 + 1) (initState [mkTask "Z" 0 0 5 ⊤ false none none])).time
        = 2 + 1 ∧
      (runSim [mkTask "Z" 0 0 5 ⊤ false none none] "edf" 2 20).timeline.length
        = 2 + 1) :=
  ⟨by with_unfolding_all decide,
   ⟨by with_unfolding_all decide, by with_unfolding_all decide⟩,
   c10_zero_exec_starved [mkTask "Z" 0 0 5 ⊤ false none none] "edf" 2 20 0 (by decide)
     (by with_unfolding_all decide) (by with_unfolding_all decide)
     (by with_unfolding_all decide)⟩

end OSSim
